import Mathlib

/-!
Verification of the plexgen core (character-set algebra, transitions, states,
machine algebra) against its natural-language specification.

The Python sources are embedded shallowly:

* `plexgen/charset.py`   — ranges, binary search, add/discard, boolean algebra,
  the `disjoint` decomposition (with a faithful model of Python `heapq`, which
  backs `plexgen/prioq.py`);
* `plexgen/transitions.py` and `plexgen/states.py` — transition variants,
  merge-on-insert, epsilon predicates;
* `plexgen/automaton.py`  — machine operations (`repeat`, `action`, …).

Machine integers are modelled as `Int` (Python integers are unbounded),
fallible code returns `Except String`, loops carry explicit fuel so that all
definitions compute by kernel reduction.  Python statements that reference
undefined names (the source has several) are modelled as the `NameError` /
`TypeError` the interpreter raises there; each such spot cites the source line.
-/

/-! ## Character ranges (charset.py) -/

/-- `MAX_CHAR` (charset.py:27). -/
def MAX_CHAR : Int := 0x10ffff

/-- A closed interval of code points: `Range = namedtuple('Range', ['start', 'end'])`
(charset.py:48).  The Python field `end` is a Lean keyword, so it is named
`stop` here. -/
structure Rng where
  start : Int
  stop : Int
deriving DecidableEq, Repr

/-- Membership of a code point in one range. -/
def rmem (c : Int) (r : Rng) : Prop := r.start ≤ c ∧ c ≤ r.stop

instance (c : Int) (r : Rng) : Decidable (rmem c r) :=
  inferInstanceAs (Decidable (r.start ≤ c ∧ c ≤ r.stop))

/-- Membership of a code point in a range list (the set a `CharSet` stands for). -/
def lmem (c : Int) (rs : List Rng) : Prop := ∃ r ∈ rs, rmem c r

instance (c : Int) (rs : List Rng) : Decidable (lmem c rs) :=
  inferInstanceAs (Decidable (∃ r ∈ rs, rmem c r))

/-- Bounds part of the canonical invariant: every range is non-empty and inside
`[0, MAX_CHAR]`. -/
def boundedRanges (rs : List Rng) : Prop :=
  ∀ r ∈ rs, 0 ≤ r.start ∧ r.start ≤ r.stop ∧ r.stop ≤ MAX_CHAR

/-- Ordering part of the canonical invariant: consecutive ranges are sorted and
non-adjacent, `ranges[i].end + 1 < ranges[i+1].start`. -/
def sortedGaps (rs : List Rng) : Prop :=
  List.Chain' (fun a b => a.stop + 1 < b.start) rs

/-- The canonical invariants of a range list (spec section 3). -/
def Canon (rs : List Rng) : Prop := boundedRanges rs ∧ sortedGaps rs

instance (rs : List Rng) : Decidable (boundedRanges rs) :=
  inferInstanceAs (Decidable (∀ r ∈ rs, 0 ≤ r.start ∧ r.start ≤ r.stop ∧ r.stop ≤ MAX_CHAR))

instance instDecSortedGaps : (rs : List Rng) → Decidable (sortedGaps rs)
  | [] => isTrue List.chain'_nil
  | [_] => isTrue (List.chain'_singleton _)
  | a :: b :: rest =>
    haveI : Decidable (sortedGaps (b :: rest)) := instDecSortedGaps (b :: rest)
    decidable_of_iff ((a.stop + 1 < b.start) ∧ sortedGaps (b :: rest))
      (by unfold sortedGaps; exact (@List.chain'_cons Rng (fun x y => x.stop + 1 < y.start) a b rest).symm)

instance (rs : List Rng) : Decidable (Canon rs) :=
  inferInstanceAs (Decidable (boundedRanges rs ∧ sortedGaps rs))

/-- Number of code points covered, `sum (end - start + 1)` (charset.py:628). -/
def sumLen (rs : List Rng) : Int := (rs.map (fun r => r.stop - r.start + 1)).sum

/-- `_vchars` (charset.py:51): validate a code point, `ValueError` outside
`[MIN_CHAR, MAX_CHAR]`. -/
def _vchars (c : Int) : Except String Unit :=
  if c < 0 ∨ MAX_CHAR < c then .error "ValueError: invalid character code"
  else .ok ()

/-- The `while lo < hi` loop of `_search_ranges` (charset.py:154-171).  `fuel`
bounds the iteration count; `hi - lo` iterations always suffice. -/
def searchLoop (fuel : Nat) (ranges : List Rng) (item : Int) (lo hi : Nat) :
    Nat × Bool :=
  match fuel with
  | 0 => (lo, false)
  | fuel + 1 =>
    if lo < hi then
      let mid := (lo + hi) / 2
      let r := ranges.getD mid ⟨0, 0⟩
      if r.start ≤ item ∧ item ≤ r.stop then (mid, true)
      else if item < r.start then searchLoop fuel ranges item lo mid
      else searchLoop fuel ranges item (mid + 1) hi
    else (lo, false)

/-- `_search_ranges` (charset.py:118-171): bounds checks (`IndexError`), the
empty-slice early return (equivalent to the loop exiting immediately), then the
binary-search loop.  `hi = none` encodes Python `hi=None`. -/
def _search_ranges (ranges : List Rng) (item : Int) (lo : Nat) (hi : Option Nat) :
    Except String (Nat × Bool) :=
  let hiv := hi.getD ranges.length
  if lo > min hiv ranges.length then .error "IndexError: lo out of range"
  else if hiv > ranges.length then .error "IndexError: hi out of range"
  else .ok (searchLoop (hiv - lo) ranges item lo hiv)

/-- `_add_range` (charset.py:174-223).  Hints are `(index, contained)` pairs as
returned by `_search_ranges`; `none` means the hint was not supplied and the
search is performed here.  The Python list splice
`ranges[start_idx:end_idx] = [Range(start, end)]` becomes take/append/drop. -/
def _add_range (ranges : List Rng) (start stop : Int)
    (start_hint stop_hint : Option (Nat × Bool)) : Except String (List Rng) := do
  let (start_idx, start_contained) ←
    match start_hint with
    | some h => pure h
    | none => _search_ranges ranges start 0 none
  let (stop_idx0, stop_contained) ←
    match stop_hint with
    | some h => pure h
    | none => _search_ranges ranges stop start_idx none
  if start_idx = stop_idx0 ∧ start_contained ∧ stop_contained then
    pure ranges
  else
    let start1 := if start_contained then (ranges.getD start_idx ⟨0, 0⟩).start else start
    let stop1 := if stop_contained then (ranges.getD stop_idx0 ⟨0, 0⟩).stop else stop
    let stop_idx1 := if stop_contained then stop_idx0 + 1 else stop_idx0
    let merge_left := 0 < start_idx ∧ (ranges.getD (start_idx - 1) ⟨0, 0⟩).stop + 1 = start1
    let start_idx2 := if merge_left then start_idx - 1 else start_idx
    let start2 := if merge_left then (ranges.getD (start_idx - 1) ⟨0, 0⟩).start else start1
    let merge_right := stop_idx1 < ranges.length ∧ (ranges.getD stop_idx1 ⟨0, 0⟩).start = stop1 + 1
    let stop2 := if merge_right then (ranges.getD stop_idx1 ⟨0, 0⟩).stop else stop1
    let stop_idx2 := if merge_right then stop_idx1 + 1 else stop_idx1
    pure (ranges.take start_idx2 ++ [⟨start2, stop2⟩] ++ ranges.drop stop_idx2)

/-- The body of `_discard_range` (charset.py:253-270) after the two
`(index, contained)` pairs are in hand: the already-excluded early return, the
replacement fragments, and the list splice
`ranges[start_idx:end_idx] = repl`. -/
def discardWith (ranges : List Rng) (start stop : Int)
    (start_idx : Nat) (start_contained : Bool)
    (stop_idx : Nat) (stop_contained : Bool) : List Rng :=
  if start_idx = stop_idx ∧ ¬start_contained ∧ ¬stop_contained then
    ranges
  else
    let left : List Rng :=
      if start_contained ∧ (ranges.getD start_idx ⟨0, 0⟩).start ≠ start then
        [⟨(ranges.getD start_idx ⟨0, 0⟩).start, start - 1⟩]
      else []
    let right : List Rng :=
      if stop_contained ∧ (ranges.getD stop_idx ⟨0, 0⟩).stop ≠ stop then
        [⟨stop + 1, (ranges.getD stop_idx ⟨0, 0⟩).stop⟩]
      else []
    let stop_idx1 := if stop_contained then stop_idx + 1 else stop_idx
    ranges.take start_idx ++ (left ++ right) ++ ranges.drop stop_idx1

/-- `_discard_range` (charset.py:226-270), for integer `start`/`end` arguments
(every call site but `CharSet.remove` with a string item passes integers; see
`CS.remove` below for that case). -/
def _discard_range (ranges : List Rng) (start stop : Int)
    (start_hint stop_hint : Option (Nat × Bool)) : Except String (List Rng) := do
  let (start_idx, start_contained) ←
    match start_hint with
    | some h => pure h
    | none => _search_ranges ranges start 0 none
  let (stop_idx0, stop_contained) ←
    match stop_hint with
    | some h => pure h
    | none => _search_ranges ranges stop start_idx none
  pure (discardWith ranges start stop start_idx start_contained stop_idx0 stop_contained)

/-- `_invert` (charset.py:273-301): generator over the complement within
`[MIN_CHAR, MAX_CHAR]`, carrying the running `start`. -/
def invertFrom (start : Int) (rs : List Rng) : List Rng :=
  match rs with
  | [] => if start ≤ MAX_CHAR then [⟨start, MAX_CHAR⟩] else []
  | r :: rest =>
    if start ≤ r.start - 1 then ⟨start, r.start - 1⟩ :: invertFrom (r.stop + 1) rest
    else invertFrom (r.stop + 1) rest

/-- `_invert(ranges)` as the list the generator produces. -/
def _invert (rs : List Rng) : List Rng := invertFrom 0 rs

/-- `_intersection` (charset.py:304-326): arrange for the first list to be the
longest, then discard each range of the inverse of the other. -/
def _intersection (ranges1 ranges2 : List Rng) : Except String (List Rng) :=
  let p := if ranges1.length < ranges2.length then (ranges2, ranges1) else (ranges1, ranges2)
  (_invert p.2).foldlM (fun acc rng => _discard_range acc rng.start rng.stop none none) p.1

/-- `_union` (charset.py:329-351): arrange for the first list to be the longest,
then add each range of the other. -/
def _union (ranges1 ranges2 : List Rng) : Except String (List Rng) :=
  let p := if ranges1.length < ranges2.length then (ranges2, ranges1) else (ranges1, ranges2)
  p.2.foldlM (fun acc rng => _add_range acc rng.start rng.stop none none) p.1

/-- The `for rng in ranges2` loop of `_isdisjoint` (charset.py:418-426), with
its early `return False`. -/
def isdLoop (ranges1 ranges2 : List Rng) : Except String Bool :=
  match ranges2 with
  | [] => pure true
  | rng :: rest => do
    let (start_idx, start_contained) ← _search_ranges ranges1 rng.start 0 none
    let (stop_idx, stop_contained) ← _search_ranges ranges1 rng.stop start_idx none
    if start_idx ≠ stop_idx ∨ start_contained ∨ stop_contained then pure false
    else isdLoop ranges1 rest

/-- `_isdisjoint` (charset.py:402-426). -/
def _isdisjoint (ranges1 ranges2 : List Rng) : Except String Bool :=
  let p := if ranges1.length < ranges2.length then (ranges2, ranges1) else (ranges1, ranges2)
  isdLoop p.1 p.2

/-- `BaseCharSet.__eq__` (charset.py:644-647): equal lengths and pairwise-equal
zipped ranges — i.e. structural equality of the range lists. -/
def baseEq (r1 r2 : List Rng) : Bool :=
  r1.length == r2.length && (List.zip r1 r2).all fun p => p.1 == p.2

/-- The `for rng in self.ranges` loop of `BaseCharSet._issubset`
(charset.py:840-849), carrying the running lower bound `idx`. -/
def issubsetLoop (own other : List Rng) (idx : Nat) : Except String Bool :=
  match own with
  | [] => pure true
  | rng :: rest => do
    let (idx1, contained) ← _search_ranges other rng.start idx none
    if ¬contained ∨ (other.getD idx1 ⟨0, 0⟩).stop < rng.stop then pure false
    else issubsetLoop rest other idx1

/-- `BaseCharSet._issubset` (charset.py:827-849). -/
def _issubset (own other : List Rng) : Except String Bool :=
  issubsetLoop own other 0

/-- A mutable `CharSet` (charset.py:868): its range list plus the `_len_cache`
slot (`none` encodes Python `None`). -/
structure CS where
  ranges : List Rng
  lenCache : Option Int
deriving DecidableEq, Repr

/-- `CharSet.__len__` (charset.py:616-631): use the cache when present, else
recompute. -/
def CS.length (s : CS) : Int := s.lenCache.getD (sumLen s.ranges)

/-- `_len_cache` validity: the cached value (when populated) agrees with the
recomputed sum (charset.py:627-631), i.e. `__len__` returns the sum. -/
def cacheOK (s : CS) : Prop := CS.length s = sumLen s.ranges

instance (s : CS) : Decidable (cacheOK s) :=
  inferInstanceAs (Decidable (CS.length s = sumLen s.ranges))

/-- The full invariant of a mutable CharSet: canonical ranges plus a valid
length cache. -/
def CInv (s : CS) : Prop := Canon s.ranges ∧ cacheOK s

instance (s : CS) : Decidable (CInv s) :=
  inferInstanceAs (Decidable (Canon s.ranges ∧ cacheOK s))

/-- `CharSet.add` for an integer item (charset.py:1014-1039). -/
def CS.add (s : CS) (item : Int) : Except String CS := do
  _vchars item
  let (idx, contained) ← _search_ranges s.ranges item 0 none
  if contained then pure s
  else do
    let r ← _add_range s.ranges item item (some (idx, contained)) (some (idx, contained))
    pure ⟨r, none⟩

/-- `CharSet.discard` for an integer item (charset.py:1041-1071). -/
def CS.discard (s : CS) (item : Int) : Except String CS := do
  _vchars item
  if s.ranges = [] then pure s
  else do
    let (idx, contained) ← _search_ranges s.ranges item 0 none
    if ¬contained then pure s
    else do
      let r ← _discard_range s.ranges item item (some (idx, contained)) (some (idx, contained))
      pure ⟨r, none⟩

/-- An item passed to `CharSet.remove` (charset.py:1073-1108): either a Python
integer or a 1-character string (represented by its code point). -/
inductive RItem where
  | int (n : Int)
  | chr (c : Int)
deriving DecidableEq, Repr

/-- `CharSet.remove` (charset.py:1073-1108).  For a string item the source sets
`char = ord(item)` but then passes the *original string* `item` to
`_discard_range` (charset.py:1107); there, `start_contained` is true and
`ranges[start_idx].start != start` compares an int with a str (true in both
Python 2 and 3), so `Range(ranges[start_idx].start, start - 1)`
(charset.py:261) evaluates `str - int` and raises `TypeError`.  That call is
modelled by its outcome. -/
def CS.remove (s : CS) (item : RItem) : Except String CS := do
  match item with
  | .int n => do
    _vchars n
    if s.ranges = [] then .error "KeyError"
    else do
      let (idx, contained) ← _search_ranges s.ranges n 0 none
      if ¬contained then .error "KeyError"
      else do
        let r ← _discard_range s.ranges n n (some (idx, contained)) (some (idx, contained))
        pure ⟨r, none⟩
  | .chr c => do
    if s.ranges = [] then .error "KeyError"
    else do
      let (_, contained) ← _search_ranges s.ranges c 0 none
      if ¬contained then .error "KeyError"
      else
        .error "TypeError: unsupported operand types for -: str and int"

/-- `BaseCharSet.__contains__` for an integer item (charset.py:585-601). -/
def CS.containsInt (s : CS) (item : Int) : Except String Bool := do
  let r ← _search_ranges s.ranges item 0 none
  pure r.2

/-- `BaseCharSet.__and__` (charset.py:754-770): identical operands short-cut to
a copy (`CharSet(self)` keeps the ranges, fresh cache), otherwise
`CharSet(None, _intersection(...))`. -/
def CS.and (a b : CS) : Except String CS :=
  if baseEq a.ranges b.ranges then pure ⟨a.ranges, none⟩
  else do
    let r ← _intersection a.ranges b.ranges
    pure ⟨r, none⟩

/-- `BaseCharSet.isdisjoint` between two CharSets (charset.py:851-865). -/
def CS.isdisjoint (a b : CS) : Except String Bool :=
  _isdisjoint a.ranges b.ranges

/-! ## Priority queue (prioq.py over Python heapq) and `disjoint` (charset.py) -/

/-- Work-queue items of `BaseCharSet.disjoint`: a range and the list of
originating input sets, identified by their argument position. -/
abbrev QItem := Rng × List Nat

/-- The key routine passed to `PrioQ` in `disjoint` (charset.py:489-490):
`(range start, range length)`. -/
def disjointKey (x : QItem) : Int × Int := (x.1.start, x.1.stop - x.1.start + 1)

/-- `KeyWrap.__lt__` (prioq.py:71-84): Python tuple comparison of the keys,
i.e. lexicographic order on `(start, length)`. -/
def ltQ (a b : QItem) : Bool :=
  let ka := disjointKey a
  let kb := disjointKey b
  ka.1 < kb.1 || (ka.1 == kb.1 && ka.2 < kb.2)

/-- Default element for out-of-range heap reads (indices are always in range
in an actual run; this mirrors nothing in Python, where such a read would be
impossible). -/
def dfltQ : QItem := (⟨0, 0⟩, [])

/-- `heapq._siftdown(heap, startpos, pos)`: walk `pos` toward the root while
`newitem` is smaller than the parent.  `fuel = pos + 1` always suffices. -/
def siftdownLoop (fuel : Nat) (heap : List QItem) (startpos pos : Nat)
    (newitem : QItem) : List QItem :=
  match fuel with
  | 0 => heap.set pos newitem
  | fuel + 1 =>
    if startpos < pos then
      let parentpos := (pos - 1) / 2
      let parent := heap.getD parentpos dfltQ
      if ltQ newitem parent then
        siftdownLoop fuel (heap.set pos parent) startpos parentpos newitem
      else heap.set pos newitem
    else heap.set pos newitem

/-- `heapq._siftup(heap, pos)`: bubble the smaller child up until a leaf is
reached, then place `newitem` and sift it down.  `fuel = heap length`
suffices. -/
def siftupLoop (fuel : Nat) (heap : List QItem) (startpos pos : Nat)
    (newitem : QItem) : List QItem :=
  match fuel with
  | 0 => siftdownLoop (pos + 1) (heap.set pos newitem) startpos pos newitem
  | fuel + 1 =>
    let endpos := heap.length
    let childpos := 2 * pos + 1
    if childpos < endpos then
      let rightpos := childpos + 1
      let childpos :=
        if rightpos < endpos ∧ ¬ltQ (heap.getD childpos dfltQ) (heap.getD rightpos dfltQ)
        then rightpos else childpos
      siftupLoop fuel (heap.set pos (heap.getD childpos dfltQ)) startpos childpos newitem
    else
      siftdownLoop (pos + 1) (heap.set pos newitem) startpos pos newitem

/-- `heapq.heappush` as used by `PrioQ.push` (prioq.py:169-177). -/
def heappush (heap : List QItem) (item : QItem) : List QItem :=
  siftdownLoop (heap.length + 1) (heap ++ [item]) 0 heap.length item

/-- `heapq.heappop` as used by `PrioQ.pop` (prioq.py:179-188): remove the last
element; if the heap is still non-empty, move it to the root and sift up.
Returns `none` on an empty heap (Python would raise `IndexError`; the
`disjoint` loop guards every pop with non-emptiness). -/
def heappop (heap : List QItem) : Option (QItem × List QItem) :=
  match heap.getLast? with
  | none => none
  | some lastelt =>
    let rest := heap.dropLast
    if rest.isEmpty then some (lastelt, [])
    else
      let h1 := rest.set 0 lastelt
      some (rest.headD dfltQ, siftupLoop h1.length h1 0 0 (h1.getD 0 dfltQ))

/-- The duplicate-collapse loop of `disjoint` (charset.py:499-502): while the
top entry has the same range, merge its owner list and pop it. -/
def dupLoop (fuel : Nat) (heap : List QItem) (rng : Rng) (csets : List Nat) :
    List Nat × List QItem :=
  match fuel with
  | 0 => (csets, heap)
  | fuel + 1 =>
    match heap.head? with
    | some top =>
      if top.1 = rng then
        match heappop heap with
        | some (_, h1) => dupLoop fuel h1 rng (csets ++ top.2)
        | none => (csets, heap)
      else (csets, heap)
    | none => (csets, heap)

/-- The superset-collection loop of `disjoint` (charset.py:511-525): pop
entries starting at or before `start` as supersets; on the first other entry,
clamp `stop` if it overlaps, and break.  Returns the clamped `stop`, the
accumulated `fcsets`, the popped supersets and the remaining heap. -/
def susLoop (fuel : Nat) (heap : List QItem) (start stop : Int)
    (fcsets : List Nat) (supersets : List QItem) :
    Int × List Nat × List QItem × List QItem :=
  match fuel with
  | 0 => (stop, fcsets, supersets, heap)
  | fuel + 1 =>
    match heap.head? with
    | none => (stop, fcsets, supersets, heap)
    | some top =>
      if top.1.start ≤ start then
        match heappop heap with
        | some (_, h1) => susLoop fuel h1 start stop (fcsets ++ top.2) (supersets ++ [top])
        | none => (stop, fcsets, supersets, heap)
      else
        let stop1 := if top.1.start ≤ stop then top.1.start - 1 else stop
        (stop1, fcsets, supersets, heap)

/-- The `while ranges` work loop of `BaseCharSet.disjoint` (charset.py:495-540),
producing the emitted `(D, owners)` pairs in order.  Note charset.py:539 pushes
the unconsumed remainder only when `start < rng.end` — with
`start = end + 1`, a remainder of exactly one code point is not pushed. -/
def disjointLoop (fuel : Nat) (heap : List QItem) : List (Rng × List Nat) :=
  match fuel with
  | 0 => []
  | fuel + 1 =>
    match heappop heap with
    | none => []
    | some ((rng, csets0), h1) =>
      let dc := dupLoop fuel h1 rng csets0
      let csets := dc.1
      let h2 := dc.2
      let start := rng.start
      let stop := rng.stop
      let su := susLoop fuel h2 start stop csets []
      let stop1 := su.1
      let fcsets := su.2.1
      let supersets := su.2.2.1
      let h3 := su.2.2.2
      let start1 := stop1 + 1
      let h4 := supersets.foldl
        (fun h suset => heappush h (⟨start1, suset.1.stop⟩, suset.2)) h3
      let h5 := if start1 < rng.stop then heappush h4 (⟨start1, rng.stop⟩, csets) else h4
      (⟨start, stop1⟩, fcsets) :: disjointLoop fuel h5

/-- `BaseCharSet.disjoint(*csets)` (charset.py:441-540): push every
`(range, [cset])` pair, keyed by `(start, length)`, then run the work loop.
Input sets are identified by argument position.  The fuel is ample for the
concrete inputs evaluated below (the queue shrinks in total range length). -/
def disjointPy (csets : List (List Rng)) : List (Rng × List Nat) :=
  let heap := (csets.enum.foldl
    (fun h p => p.2.foldl (fun h r => heappush h (r, [p.1])) h) [])
  disjointLoop 1000 heap

/-! ## Transitions, states and machines (transitions.py, states.py, automaton.py)

States are identity objects in Python; they are modelled as `Nat` handles into
a `WorldR` that owns the per-state data and the transition set.  The two
per-state tables (`_trans_in` / `_trans_out`) are maintained symmetrically by
`State.transition`, so a single world-level transition list, viewed through
`src` / `dst` filters, is observationally equivalent for the operations
modelled here (none of them call `reverse`). -/

/-- Transition variant with payload (transitions.py: `Epsilon`, `MatchChar`,
`Action`). -/
inductive TCls where
  | eps
  | matchChar (cset : List Rng)
  | act (action : String) (precedence : Int) (name : Option String)
deriving DecidableEq, Repr

/-- `priority` (transitions.py:190, 263, 376). -/
def TCls.priority : TCls → Nat
  | .eps => 0
  | .matchChar _ => 1
  | .act _ _ _ => 2

/-- Same Python class (`t.__class__ is trans.__class__`, states.py:179). -/
def sameVariant : TCls → TCls → Bool
  | .eps, .eps => true
  | .matchChar _, .matchChar _ => true
  | .act _ _ _, .act _ _ _ => true
  | _, _ => false

/-- A transition with its endpoints; `tid` models Python object identity. -/
structure TransT where
  tid : Nat
  cls : TCls
  src : Nat
  dst : Nat
deriving DecidableEq, Repr

/-- Per-state data (states.py:115-141): the `accepting` flag and the start
code.  (`name` is never read by the modelled operations.) -/
structure StateD where
  accepting : Bool
  code : Option String
deriving DecidableEq, Repr

/-- The object graph shared by all live machines: state data, the transition
set, and fresh-identity counters. -/
structure WorldR where
  states : List (Nat × StateD)
  trans : List TransT
  nextSid : Nat
  nextTid : Nat
deriving DecidableEq, Repr

/-- A `Machine` as data (automaton.py:99-108): start state, owned state set,
accepting set, and the `_final_cache` slot.  (No machine can actually be
constructed by the source — see `machineInitPy` — but operations such as
`repeat` and `action` mutate machines they are handed.) -/
structure MachineR where
  start : Nat
  states : List Nat
  accepting : List Nat
  finalCache : Option Nat
deriving DecidableEq, Repr

/-- A `Lexer` as data (automaton.py:774-783): a machine plus the
`_start_codes` index. -/
structure LexR where
  mach : MachineR
  startCodes : List (String × Nat)
deriving DecidableEq, Repr

/-- Look up a state's data (default never used for handles actually
allocated). -/
def getStateD (w : WorldR) (sid : Nat) : StateD :=
  ((w.states.find? (fun p => p.1 == sid)).map (fun p => p.2)).getD ⟨false, none⟩

/-- Assign `state.accepting`. -/
def setAcc (w : WorldR) (sid : Nat) (b : Bool) : WorldR :=
  { w with states :=
      w.states.map (fun p => if p.1 = sid then (p.1, { p.2 with accepting := b }) else p) }

/-- Assign `state.code`. -/
def setCode (w : WorldR) (sid : Nat) (c : Option String) : WorldR :=
  { w with states :=
      w.states.map (fun p => if p.1 = sid then (p.1, { p.2 with code := c }) else p) }

/-- Python set union of state-handle sets (`self._states |= mach._states`). -/
def listUnion (a b : List Nat) : List Nat :=
  a ++ b.filter (fun x => ¬ a.contains x)

/-- `CharSet.__ior__` (charset.py:956-973) as used by `MatchChar.merge`
(`self.cset |= other.cset`, transitions.py:348): no-op on structurally equal
sets, else `_union`. -/
def iorRanges (r1 r2 : List Rng) : Except String (List Rng) :=
  if baseEq r1 r2 then pure r1 else _union r1 r2

/-- Precedence of an `Action` transition (0 for other variants, never used). -/
def tPrec (t : TransT) : Int :=
  match t.cls with
  | .act _ p _ => p
  | _ => 0

/-- `State.transition(trans_class, next_state, **kwargs)` (states.py:154-200):
construct the transition, collect the existing same-variant transitions
between the same endpoints, apply the variant's `merge`
(transitions.py: Epsilon keeps `{self}`; MatchChar folds the other csets into
the new one with in-place union; Action keeps the minimum-precedence one —
ties are resolved in an unspecified order by the source, here the first seen
wins), then replace the merged-away transitions with the merge result. -/
def transitionW (w : WorldR) (src : Nat) (cls : TCls) (dst : Nat) :
    Except String WorldR := do
  let others := w.trans.filter
    (fun t => t.src = src ∧ t.dst = dst ∧ sameVariant t.cls cls)
  let oids := others.map (fun t => t.tid)
  let kept := w.trans.filter (fun t => ¬ oids.contains t.tid)
  match cls with
  | .eps =>
    pure { w with trans := kept ++ [⟨w.nextTid, .eps, src, dst⟩],
                  nextTid := w.nextTid + 1 }
  | .matchChar cs => do
    let merged ← others.foldlM
      (fun acc t =>
        match t.cls with
        | .matchChar c2 => iorRanges acc c2
        | _ => pure acc) cs
    pure { w with trans := kept ++ [⟨w.nextTid, .matchChar merged, src, dst⟩],
                  nextTid := w.nextTid + 1 }
  | .act a p nm =>
    let newT : TransT := ⟨w.nextTid, .act a p nm, src, dst⟩
    let pool := others ++ [newT]
    let best := pool.foldl (fun acc t => if tPrec t < tPrec acc then t else acc)
      (pool.headD newT)
    pure { w with trans := kept ++ [best], nextTid := w.nextTid + 1 }

/-- `State.eps_out` via `_all_eps` (states.py:18-42, 246-256): true iff every
outgoing transition has priority 0.  (The `_eps_out` cache is kept consistent
by `transition`'s invalidation, so recomputing is equivalent here.) -/
def epsOutW (w : WorldR) (sid : Nat) : Bool :=
  (w.trans.filter (fun t => t.src = sid)).all (fun t => t.cls.priority == 0)

/-- `State.eps_in`, analogously over incoming transitions. -/
def epsInW (w : WorldR) (sid : Nat) : Bool :=
  (w.trans.filter (fun t => t.dst = sid)).all (fun t => t.cls.priority == 0)

/-- `Machine._new_state` (automaton.py:156-180). -/
def newStateW (w : WorldR) (m : MachineR) (accepting : Bool) (code : Option String) :
    WorldR × MachineR × Nat :=
  let sid := w.nextSid
  let w1 := { w with states := w.states ++ [(sid, ⟨accepting, code⟩)],
                     nextSid := sid + 1 }
  let m1 := { m with states := m.states ++ [sid],
                     accepting := if accepting then m.accepting ++ [sid] else m.accepting,
                     finalCache := if accepting then none else m.finalCache }
  (w1, m1, sid)

/-- `Machine._add_start` (automaton.py:182-206). -/
def addStartW (w : WorldR) (m : MachineR) :
    Except String (WorldR × MachineR × Nat) := do
  let sd := getStateD w m.start
  let (w1, m1, new) := newStateW w m sd.accepting sd.code
  let w2 ← transitionW w1 new .eps m.start
  let w3 := setCode (setAcc w2 m1.start false) m1.start none
  let m2 := { m1 with accepting := m1.accepting.filter (fun s => s ≠ m1.start),
                      start := new }
  pure (w3, m2, new)

/-- `Machine._unify_accepting` (automaton.py:208-237).  The `for state in
self._accepting` loop iterates a Python set in unspecified order; all
iterations commute (distinct sources, same fresh target), so list order is
used. -/
def unifyAcceptingW (w : WorldR) (m : MachineR) :
    Except String (WorldR × MachineR × Nat) := do
  let (w1, m1, new) := newStateW w m false none
  let w2 ← m1.accepting.foldlM
    (fun wacc s => do
      let wacc ← transitionW wacc s .eps new
      pure (setAcc wacc s false)) w1
  let w3 := setAcc w2 new true
  pure (w3, { m1 with accepting := [new], finalCache := some new }, new)

/-- The `Machine._final` property (automaton.py:375-397): cached, `none` when
there is no accepting state, unify when there are several, else the single
accepting state (cached). -/
def finalW (w : WorldR) (m : MachineR) :
    Except String (Option Nat × WorldR × MachineR) := do
  match m.finalCache with
  | some f => pure (some f, w, m)
  | none =>
    if m.accepting = [] then pure (none, w, m)
    else if m.accepting.length > 1 then do
      let (w1, m1, f) ← unifyAcceptingW w m
      pure (some f, w1, m1)
    else
      pure (m.accepting.head?, w, { m with finalCache := m.accepting.head? })

/-- Raised by `Machine.__init__`: its first statement
`self._start = State(accepting, code)` (automaton.py:100) references the
global name `State`, which is not defined in `plexgen/automaton.py` (the
module imports `plexgen.states` as `states` and uses `states.State`
everywhere else). -/
def nameErrorState : String := "NameError: name State is not defined"

/-- Raised by the `Matcher.match_str` loop body (automaton.py:459), which
passes the undefined local name `final` to `transition` (flagged in the spec,
section 9). -/
def nameErrorFinal : String := "NameError: name final is not defined"

/-- Raised by `Matcher.repeat` (automaton.py:705): the dispatch tests
`other in _match_equiv`, but the module defines `_repeat_equiv`
(automaton.py:24); `_match_equiv` is undefined. -/
def nameErrorMatchEquiv : String := "NameError: name _match_equiv is not defined"

/-- Raised when `mach._final` is `None` and the source calls a method on it. -/
def attrErrNone : String := "AttributeError: NoneType has no attribute"

/-- `Machine.__init__` (automaton.py:88-108): the very first statement
(automaton.py:100) raises `NameError` — see `nameErrorState` — so no machine,
matcher or lexer can be constructed by the source; the remaining statements
(automaton.py:101-108) are dead code. -/
def machineInitPy (_accepting : Bool) (_code : Option String) :
    Except String (WorldR × MachineR) :=
  .error nameErrorState

/-- `Machine.copy` (automaton.py:249-280): its first statement
`mach = self.__class__()` invokes `Machine.__init__`, which raises; the rest
of the method (automaton.py:260-280) is unreachable and is not modelled
further. -/
def copyPy (_w : WorldR) (_m : MachineR) : Except String (WorldR × MachineR) := do
  let _ ← machineInitPy false none
  .error "unreachable: automaton.py:260-280"

/-- `_StateMapper.__missing__` (automaton.py:53-72): builds the destination
state with `self.dest._new_state(key.accepting)` — the source state's `code`
is *not* passed, so the new state gets the `_new_state` default `code=None`
(automaton.py:156-170). -/
def stateMapperMissing (w : WorldR) (dest : MachineR) (key : Nat) :
    WorldR × MachineR × Nat :=
  newStateW w dest (getStateD w key).accepting none

/-- The per-character loop of `Matcher.match_str` (automaton.py:456-461), run
against an already-constructed machine: for the empty string the loop does not
execute; for a non-empty string the first iteration creates the new state and
then evaluates `last_state.transition(transitions.MatchChar, final, ...)`
(automaton.py:459) where the local `final` is undefined → `NameError`. -/
def matchStrBody (w : WorldR) (mach : MachineR) (s : List Int) :
    Except String (WorldR × MachineR) :=
  match s with
  | [] => pure (w, mach)
  | _ :: _ =>
    let _ := newStateW w mach (s.length == 1) none
    .error nameErrorFinal

/-- `Matcher.match_str` (automaton.py:441-463): `mach = cls()` raises first
(see `machineInitPy`); even with construction repaired, the loop raises on the
first character (see `matchStrBody`).  A string is its list of code points. -/
def matchStrPy (s : List Int) : Except String (WorldR × MachineR) := do
  let (w, mach) ← machineInitPy false none
  matchStrBody w mach s

/-- The seed step of `Machine.dfa`:
`start = states.eps_closure(self._start)` (automaton.py:330) passes the start
`State` itself, but `states.eps_closure(states)` (states.py:68-106) expects an
iterable of states — its first statement `workq = list(states)` (states.py:80)
raises `TypeError` on a `State`.  (The other call site, automaton.py:360,
unpacks a generator into several positional arguments against the same
1-parameter signature.) -/
def epsClosureOfStatePy (_start : Nat) : Except String (List Nat) :=
  .error "TypeError: State object is not iterable"

/-- `Machine.dfa` (automaton.py:317-373): `mach = self.__class__()`
(automaton.py:327) raises first (see `machineInitPy`); the eps-closure seed
would raise next; the work loop (automaton.py:331-373) is unreachable and is
not modelled further. -/
def dfaPy (_w : WorldR) (m : MachineR) : Except String (WorldR × MachineR) := do
  let _ ← machineInitPy false none
  let _ ← epsClosureOfStatePy m.start
  .error "unreachable: automaton.py:331-373"

/-- Observable effects on the simulator during `Transition.match`. -/
inductive SimOp where
  | consume
deriving DecidableEq, Repr

/-- `MatchChar.match(char, sim)` (transitions.py:299-329): `None` (end of
string) returns `False` immediately; otherwise membership in `cset` is tested
(`CharSet.__contains__`, charset.py:585-601) and `sim.consume()` is called
exactly when the character matches.  The simulator is abstracted by the list
of calls made to it. -/
def matchCharMatchPy (cset : List Rng) (char : Option Int) :
    Except String (Bool × List SimOp) :=
  match char with
  | none => pure (false, [])
  | some c => do
    let (_, contained) ← _search_ranges cset c 0 none
    if contained then pure (true, [SimOp.consume]) else pure (false, [])

/-- `Matcher.concat` (automaton.py:608-637): merge the state sets, epsilon
from `self._final` to `other._start` (an `AttributeError` if `self._final` is
`None`), clear the final's accepting flag, take over the accepting set and
invalidate the final cache. -/
def concatW (w : WorldR) (selfM other : MachineR) :
    Except String (WorldR × MachineR) := do
  let selfM := { selfM with states := listUnion selfM.states other.states }
  let (fOpt, w, selfM) ← finalW w selfM
  match fOpt with
  | none => .error attrErrNone
  | some f => do
    let w ← transitionW w f .eps other.start
    let (fOpt2, w, selfM) ← finalW w selfM
    match fOpt2 with
    | none => .error attrErrNone
    | some f2 =>
      let w := setAcc w f2 false
      pure (w, { selfM with accepting := other.accepting, finalCache := none })

/-- A value passed to `Matcher.repeat` (automaton.py:679-763): a Python
integer, one of the symbolic strings, or a 2-tuple of optional bounds. -/
inductive RSpec where
  | int (n : Int)
  | sym (s : String)
  | pair (mn mx : Option Int)
deriving DecidableEq, Repr

/-- One iteration of the `for i, mach in enumerate(machs)` loop of
`Matcher.repeat` (automaton.py:741-761), minus the trailing `concat`: the
epsilon loop for the last machine of an open interval, and the optionality
shims for machines with index `>= min_cnt`. -/
def repeatOne (w : WorldR) (mach : MachineR) (isLast maxNone iGeMin : Bool) :
    Except String (WorldR × MachineR) := do
  let (w, mach) ←
    if isLast ∧ maxNone then do
      let (fOpt, w, mach) ← finalW w mach
      match fOpt with
      | none => .error attrErrNone
      | some f => do
        let w ← transitionW w f .eps mach.start
        pure (w, mach)
    else pure (w, mach)
  if iGeMin then do
    let (w, mach, start) ←
      if epsOutW w mach.start then pure (w, mach, mach.start)
      else addStartW w mach
    let (fOpt, w, mach) ← finalW w mach
    match fOpt with
    | none => .error attrErrNone
    | some f => do
      let (w, mach, fin) ←
        if epsInW w f then pure (w, mach, f)
        else unifyAcceptingW w mach
      let w ← transitionW w start .eps fin
      pure (w, mach)
  else pure (w, mach)

/-- The remaining iterations (`i >= 1`) of the `repeat` loop, each followed by
`self.concat(mach)` since `mach is not self` there. -/
def repeatRest (w : WorldR) (selfM : MachineR) (others : List MachineR)
    (i len : Nat) (min_cnt : Int) (maxNone : Bool) :
    Except String (WorldR × MachineR) := do
  match others with
  | [] => pure (w, selfM)
  | mach :: rest => do
    let (w, mach) ← repeatOne w mach (i = len - 1) maxNone ((i : Int) ≥ min_cnt)
    let (w, selfM) ← concatW w selfM mach
    repeatRest w selfM rest (i + 1) len min_cnt maxNone

/-- The tail of `Matcher.repeat` after the spec has been canonicalized to
`(min_cnt, max_cnt)` (automaton.py:729-763): `total`, the pre-unification of
multiple accepting states, the copies (`self.copy()` — which raises, see
`copyPy`), and the machine loop. -/
def repeatBody (w : WorldR) (m : MachineR) (min_cnt : Int) (max_cnt : Option Int) :
    Except String (WorldR × MachineR) := do
  let total : Int := match max_cnt with | none => max min_cnt 1 | some mx => mx
  let (w, m) ←
    if m.accepting.length > 1 then do
      let (w1, m1, _) ← unifyAcceptingW w m
      pure (w1, m1)
    else pure (w, m)
  let copies ← (List.range (total - 1).toNat).mapM (fun _ => copyPy w m)
  let others := copies.map (fun p => p.2)
  let len := 1 + others.length
  let (w, m) ← repeatOne w m (others.length = 0) max_cnt.isNone ((0 : Int) ≥ min_cnt)
  repeatRest w m others 1 len min_cnt max_cnt.isNone

/-- `Matcher.repeat` (automaton.py:679-763).  The dispatch first tests
`isinstance(other, six.integer_types)`; a bare integer `n` is accepted with
`min_cnt = max_cnt = n` and *no validation* (automaton.py:701-704).  Every
non-integer value then evaluates `other in _match_equiv` (automaton.py:705),
an undefined name, so the symbolic and tuple branches (automaton.py:705-727)
always raise `NameError` and are otherwise dead code. -/
def repeatPy (w : WorldR) (m : MachineR) (spec : RSpec) :
    Except String (WorldR × MachineR) :=
  match spec with
  | .int n => repeatBody w m n (some n)
  | _ => .error nameErrorMatchEquiv

/-- `Lexer._get_start_by_code` (automaton.py:785-800): look up the start code,
creating a fresh accepting start state tagged with the code when absent. -/
def getStartByCodeW (w : WorldR) (lx : LexR) (code : String) :
    WorldR × LexR × Nat :=
  match lx.startCodes.find? (fun p => p.1 == code) with
  | some p => (w, lx, p.2)
  | none =>
    let (w1, m1, sid) := newStateW w lx.mach true (some code)
    (w1, { mach := m1, startCodes := lx.startCodes ++ [(code, sid)] }, sid)

/-- `Lexer.action` (automaton.py:814-863): absorb `mach`'s states
(automaton.py:845) — *before* `mach._final` is evaluated — then wire the
epsilon from the `code` start to `mach._start` and the `Action` transition
from `mach._final` (automaton.py:857, materializing a unified final inside
`mach` if it has several accepting states) to the exit start, and clear the
final's accepting flag.  Returns the updated world, lexer and sub-machine. -/
def actionPy (w : WorldR) (lx : LexR) (mach : MachineR) (action : String)
    (precedence : Int) (code : String) (exit_code : Option String)
    (name : Option String) : Except String (WorldR × LexR × MachineR) := do
  let lx := { lx with mach :=
      { lx.mach with states := listUnion lx.mach.states mach.states } }
  let (w, lx, start) := getStartByCodeW w lx code
  let (w, lx, fin) :=
    match exit_code with
    | none => (w, lx, start)
    | some ec => getStartByCodeW w lx ec
  let w ← transitionW w start .eps mach.start
  let (fOpt, w, mach) ← finalW w mach
  match fOpt with
  | none => .error attrErrNone
  | some f => do
    let w ← transitionW w f (.act action precedence name) fin
    let (fOpt2, w, mach) ← finalW w mach
    match fOpt2 with
    | none => .error attrErrNone
    | some f2 => pure (setAcc w f2 false, lx, mach)

/-! ## Concrete inputs used to evaluate the claims -/

/-- C2: a two-state matcher (the shape `match_cset` would build): `0 —a→ 1`,
state 1 accepting. -/
def c2World : WorldR :=
  ⟨[(0, ⟨false, none⟩), (1, ⟨true, none⟩)],
   [⟨0, .matchChar [⟨97, 97⟩], 0, 1⟩], 2, 1⟩

/-- C2: the machine record over `c2World`. -/
def c2Mach : MachineR := ⟨0, [0, 1], [1], none⟩

/-- C3: a freshly initialized machine as data (one non-accepting start state),
used to run the `match_str` loop body on its own. -/
def c3World : WorldR := ⟨[(0, ⟨false, none⟩)], [], 1, 0⟩

/-- C3: the machine record over `c3World`. -/
def c3Mach : MachineR := ⟨0, [0], [], none⟩

/-- C4: same shape as `c2World` — the machine `repeat` is invoked on. -/
def c4World : WorldR :=
  ⟨[(0, ⟨false, none⟩), (1, ⟨true, none⟩)],
   [⟨0, .matchChar [⟨97, 97⟩], 0, 1⟩], 2, 1⟩

/-- C4: the machine record over `c4World`. -/
def c4Mach : MachineR := ⟨0, [0, 1], [1], none⟩

/-- C5: the one-element character set `{'a'}` (code point 97). -/
def c5Set : CS := ⟨[⟨97, 97⟩], none⟩

/-- C6: the world holding a lexer start state (0, accepting, code `""`) and a
sub-machine with two accepting states: `10 —a→ 11`, `10 —b→ 12`, 11 and 12
accepting (the shape an alternation would produce). -/
def c6World : WorldR :=
  ⟨[(0, ⟨true, some ""⟩), (10, ⟨false, none⟩), (11, ⟨true, none⟩),
    (12, ⟨true, none⟩)],
   [⟨0, .matchChar [⟨97, 97⟩], 10, 11⟩, ⟨1, .matchChar [⟨98, 98⟩], 10, 12⟩],
   13, 2⟩

/-- C6: the lexer record over `c6World`. -/
def c6Lexer : LexR := ⟨⟨0, [0], [0], none⟩, [("", 0)]⟩

/-- C6: the sub-machine record over `c6World`. -/
def c6Sub : MachineR := ⟨10, [10, 11, 12], [11, 12], none⟩

/-- C6: the world after `action` — the unified final 13 was created inside the
sub-machine, the epsilon `0 → 10` and the `Action 13 → 0` were wired. -/
def c6WorldAfter : WorldR :=
  ⟨[(0, ⟨true, some ""⟩), (10, ⟨false, none⟩), (11, ⟨false, none⟩),
    (12, ⟨false, none⟩), (13, ⟨false, none⟩)],
   [⟨0, .matchChar [⟨97, 97⟩], 10, 11⟩, ⟨1, .matchChar [⟨98, 98⟩], 10, 12⟩,
    ⟨2, .eps, 0, 10⟩, ⟨3, .eps, 11, 13⟩, ⟨4, .eps, 12, 13⟩,
    ⟨5, .act "KEYWORD" 1 none, 13, 0⟩],
   14, 6⟩

/-- C6: the lexer after `action`: state 13 is missing from its state set. -/
def c6LexerAfter : LexR := ⟨⟨0, [0, 10, 11, 12], [0], none⟩, [("", 0)]⟩

/-- C6: the sub-machine after `action`: its state set gained 13. -/
def c6SubAfter : MachineR := ⟨10, [10, 11, 12, 13], [13], some 13⟩

/-- C7: a world with a non-start state (5) carrying start code `"A"` (the
shape a Lexer's extra start states have), plus a destination machine. -/
def c7World : WorldR :=
  ⟨[(0, ⟨false, none⟩), (5, ⟨true, some "A"⟩), (6, ⟨false, none⟩)], [], 7, 0⟩

/-- C7: the source machine over `c7World`. -/
def c7Mach : MachineR := ⟨0, [0, 5], [5], none⟩

/-- C7: the destination machine the state mapper populates. -/
def c7Dest : MachineR := ⟨6, [6], [], none⟩

/-! ## Search-result characterizations (used by the CharSet proofs) -/

/-- The item is contained in the range at index `i`. -/
def foundAt (rs : List Rng) (x : Int) (i : Nat) : Prop :=
  ∃ h : i < rs.length, rmem x (rs.get ⟨i, h⟩)

/-- `i` is the insertion point for `x`: everything before ends below `x`,
everything from `i` on starts above `x`. -/
def insAt (rs : List Rng) (x : Int) (i : Nat) : Prop :=
  i ≤ rs.length ∧
  (∀ j (h : j < rs.length), j < i → (rs.get ⟨j, h⟩).stop < x) ∧
  (∀ j (h : j < rs.length), i ≤ j → x < (rs.get ⟨j, h⟩).start)

/-- What a `(index, contained)` pair returned by `_search_ranges` means. -/
def searchRes (rs : List Rng) (x : Int) (p : Nat × Bool) : Prop :=
  if p.2 then foundAt rs x p.1 else insAt rs x p.1

/-! ## Lemmas: sortedness and binary search -/

/-- On a canonical list, earlier ranges end (with a gap) before later ones
start. -/
theorem canon_get_lt (rs : List Rng) (hC : Canon rs) :
    ∀ i j (hi : i < rs.length) (hj : j < rs.length), i < j →
      (rs.get ⟨i, hi⟩).stop + 1 < (rs.get ⟨j, hj⟩).start := by
  intro i j
  induction j with
  | zero => intro _ _ h; exact absurd h (Nat.not_lt_zero i)
  | succ n ih =>
    intro hi hj hij
    have hn : n < rs.length := by omega
    have hstep : (rs.get ⟨n, hn⟩).stop + 1 < (rs.get ⟨n + 1, hj⟩).start := by
      have := List.chain'_iff_get.mp hC.2 n (by omega)
      exact this
    rcases Nat.lt_succ_iff_lt_or_eq.mp hij with h | h
    · have h1 := ih hi hn h
      have h2 : (rs.get ⟨n, hn⟩).start ≤ (rs.get ⟨n, hn⟩).stop :=
        (hC.1 _ (List.get_mem rs n hn)).2.1
      omega
    · subst h; exact hstep

/-- `getD` agrees with `get` in range. -/
theorem getD_lt (rs : List Rng) (n : Nat) (h : n < rs.length) (d : Rng) :
    rs.getD n d = rs.get ⟨n, h⟩ := by
  simp [List.getD_eq_getElem?_getD, List.getElem?_eq_getElem h, List.get_eq_getElem]

/-- Correctness of the binary-search loop on a canonical list: given that the
window `[lo, hi)` is exhaustive for `item`, the loop returns either the index
of the containing range or the insertion point. -/
theorem searchLoop_spec (ranges : List Rng) (item : Int) (hC : Canon ranges) :
    ∀ fuel lo hi, lo ≤ hi → hi ≤ ranges.length → hi - lo ≤ fuel →
      (∀ j (h : j < ranges.length), j < lo → (ranges.get ⟨j, h⟩).stop < item) →
      (∀ j (h : j < ranges.length), hi ≤ j → item < (ranges.get ⟨j, h⟩).start) →
      lo ≤ (searchLoop fuel ranges item lo hi).1 ∧
      (searchLoop fuel ranges item lo hi).1 ≤ hi ∧
      searchRes ranges item (searchLoop fuel ranges item lo hi) := by
  intro fuel
  induction fuel with
  | zero =>
    intro lo hi hlohi hhi hfuel hleft hright
    have : lo = hi := by omega
    subst this
    simp only [searchLoop]
    refine ⟨le_refl _, le_refl _, ?_⟩
    simp only [searchRes, insAt]
    exact ⟨by omega, fun j h hj => hleft j h hj, fun j h hj => hright j h hj⟩
  | succ fuel ih =>
    intro lo hi hlohi hhi hfuel hleft hright
    by_cases hlt : lo < hi
    · have hmid1 : lo ≤ (lo + hi) / 2 := by omega
      have hmid2 : (lo + hi) / 2 < hi := by omega
      have hmidlen : (lo + hi) / 2 < ranges.length := by omega
      simp only [searchLoop, if_pos hlt, getD_lt ranges _ hmidlen]
      set mid := (lo + hi) / 2 with hmid
      set r := ranges.get ⟨mid, hmidlen⟩ with hr
      by_cases hcont : r.start ≤ item ∧ item ≤ r.stop
      · simp only [if_pos hcont]
        exact ⟨by omega, by omega, by simp only [searchRes, foundAt]; exact ⟨hmidlen, hcont⟩⟩
      · simp only [if_neg hcont]
        by_cases hlo2 : item < r.start
        · simp only [if_pos hlo2]
          have hnew : ∀ j (h : j < ranges.length), mid ≤ j →
              item < (ranges.get ⟨j, h⟩).start := by
            intro j h hj
            rcases Nat.eq_or_lt_of_le hj with he | hl
            · subst he; exact hlo2
            · have h1 := canon_get_lt ranges hC mid j hmidlen h hl
              rw [← hr] at h1
              have h2 : r.start ≤ r.stop := (hC.1 _ (List.get_mem ranges mid hmidlen)).2.1
              omega
          have := ih lo mid (by omega) (by omega) (by omega) hleft hnew
          exact ⟨this.1, le_trans this.2.1 (by omega), this.2.2⟩
        · simp only [if_neg hlo2]
          have hgt : r.stop < item := by
            rcases not_and_or.mp hcont with h | h <;> omega
          have hnew : ∀ j (h : j < ranges.length), j < mid + 1 →
              (ranges.get ⟨j, h⟩).stop < item := by
            intro j h hj
            rcases Nat.lt_succ_iff_lt_or_eq.mp hj with hl | he
            · have h1 := canon_get_lt ranges hC j mid h hmidlen hl
              rw [← hr] at h1
              omega
            · subst he; exact hgt
          have := ih (mid + 1) hi (by omega) hhi (by omega) hnew hright
          exact ⟨le_trans (by omega : lo ≤ mid + 1) this.1, this.2.1, this.2.2⟩
    · have : lo = hi := by omega
      subst this
      simp only [searchLoop, if_neg hlt]
      refine ⟨le_refl _, le_refl _, ?_⟩
      simp only [searchRes, insAt]
      exact ⟨by omega, fun j h hj => hleft j h hj, fun j h hj => hright j h hj⟩

/-- `_search_ranges` over the whole list: succeeds and characterizes its
result. -/
theorem search_full (ranges : List Rng) (item : Int) (hC : Canon ranges) :
    ∃ p, _search_ranges ranges item 0 none = .ok p ∧ p.1 ≤ ranges.length ∧
      searchRes ranges item p := by
  have h := searchLoop_spec ranges item hC (ranges.length - 0) 0 ranges.length
    (by omega) (le_refl _) (by omega)
    (fun j h hj => absurd hj (Nat.not_lt_zero j))
    (fun j h hj => absurd h (by omega))
  refine ⟨searchLoop (ranges.length - 0) ranges item 0 ranges.length, ?_, by omega, h.2.2⟩
  simp [_search_ranges]

/-- `_search_ranges` from a lower bound `lo` that is exhaustive for `item`:
succeeds and characterizes its result globally. -/
theorem search_from (ranges : List Rng) (item : Int) (lo : Nat) (hC : Canon ranges)
    (hlo : lo ≤ ranges.length)
    (hpre : ∀ j (h : j < ranges.length), j < lo → (ranges.get ⟨j, h⟩).stop < item) :
    ∃ p, _search_ranges ranges item lo none = .ok p ∧ lo ≤ p.1 ∧ p.1 ≤ ranges.length ∧
      searchRes ranges item p := by
  have h := searchLoop_spec ranges item hC (ranges.length - lo) lo ranges.length
    hlo (le_refl _) (by omega) hpre
    (fun j h hj => absurd h (by omega))
  refine ⟨searchLoop (ranges.length - lo) ranges item lo ranges.length, ?_, h.1, h.2.1, h.2.2⟩
  simp [_search_ranges, Nat.min_self, hlo]

/-! ## Lemmas: membership and chains over list splices -/

/-- Membership distributes over append. -/
theorem lmem_append (c : Int) (a b : List Rng) :
    lmem c (a ++ b) ↔ lmem c a ∨ lmem c b := by
  unfold lmem
  simp [List.mem_append, or_and_right, exists_or]

/-- Index form of membership. -/
theorem lmem_iff_index (c : Int) (rs : List Rng) :
    lmem c rs ↔ ∃ j, ∃ h : j < rs.length, rmem c (rs.get ⟨j, h⟩) := by
  constructor
  · rintro ⟨r, hr, hm⟩
    obtain ⟨j, h, he⟩ := List.mem_iff_getElem.mp hr
    exact ⟨j, h, by rw [List.get_eq_getElem, he]; exact hm⟩
  · rintro ⟨j, h, hm⟩
    exact ⟨rs.get ⟨j, h⟩, List.get_mem rs j h, hm⟩

/-- Membership in a prefix, by index. -/
theorem lmem_take (c : Int) (rs : List Rng) (n : Nat) :
    lmem c (rs.take n) ↔ ∃ j, ∃ h : j < rs.length, j < n ∧ rmem c (rs.get ⟨j, h⟩) := by
  rw [lmem_iff_index]
  constructor
  · rintro ⟨j, h, hm⟩
    have hlen : j < n ∧ j < rs.length := by
      have := h; simp [List.length_take] at this; omega
    refine ⟨j, hlen.2, hlen.1, ?_⟩
    have : (rs.take n).get ⟨j, h⟩ = rs.get ⟨j, hlen.2⟩ := by
      simp [List.get_eq_getElem, List.getElem_take]
    rwa [this] at hm
  · rintro ⟨j, h, hjn, hm⟩
    have h2 : j < (rs.take n).length := by simp [List.length_take]; omega
    refine ⟨j, h2, ?_⟩
    have : (rs.take n).get ⟨j, h2⟩ = rs.get ⟨j, h⟩ := by
      simp [List.get_eq_getElem, List.getElem_take]
    rw [this]; exact hm

/-- Membership in a suffix, by index. -/
theorem lmem_drop (c : Int) (rs : List Rng) (n : Nat) :
    lmem c (rs.drop n) ↔ ∃ j, ∃ h : j < rs.length, n ≤ j ∧ rmem c (rs.get ⟨j, h⟩) := by
  rw [lmem_iff_index]
  constructor
  · rintro ⟨i, h, hm⟩
    have hlen : n + i < rs.length := by
      have := h; simp [List.length_drop] at this; omega
    refine ⟨n + i, hlen, by omega, ?_⟩
    have : (rs.drop n).get ⟨i, h⟩ = rs.get ⟨n + i, hlen⟩ := by
      simp [List.get_eq_getElem, List.getElem_drop]
    rwa [this] at hm
  · rintro ⟨j, h, hnj, hm⟩
    have h2 : j - n < (rs.drop n).length := by simp [List.length_drop]; omega
    refine ⟨j - n, h2, ?_⟩
    have : (rs.drop n).get ⟨j - n, h2⟩ = rs.get ⟨j, h⟩ := by
      simp only [List.get_eq_getElem, List.getElem_drop]
      congr 1
      omega
    rw [this]; exact hm

/-- Membership across `take a ++ mid ++ drop b`. -/
theorem lmem_splice (rs : List Rng) (a b : Nat) (mid : List Rng) (c : Int) :
    lmem c (rs.take a ++ mid ++ rs.drop b) ↔
      (∃ j, ∃ h : j < rs.length, j < a ∧ rmem c (rs.get ⟨j, h⟩)) ∨ lmem c mid ∨
      (∃ j, ∃ h : j < rs.length, b ≤ j ∧ rmem c (rs.get ⟨j, h⟩)) := by
  rw [lmem_append, lmem_append, lmem_take, lmem_drop, or_assoc]

/-- A chain survives taking a prefix. -/
theorem chain'_take {R : Rng → Rng → Prop} {rs : List Rng} (h : List.Chain' R rs)
    (n : Nat) : List.Chain' R (rs.take n) := by
  have h2 : List.Chain' R (rs.take n ++ rs.drop n) := by
    rw [List.take_append_drop]; exact h
  exact (List.chain'_append.mp h2).1

/-- A chain survives dropping a prefix. -/
theorem chain'_drop {R : Rng → Rng → Prop} {rs : List Rng} (h : List.Chain' R rs)
    (n : Nat) : List.Chain' R (rs.drop n) := by
  have h2 : List.Chain' R (rs.take n ++ rs.drop n) := by
    rw [List.take_append_drop]; exact h
  exact (List.chain'_append.mp h2).2.1

/-- The last element of a non-trivial prefix. -/
theorem getLast?_take_eq (rs : List Rng) (n : Nat) (h1 : 0 < n) (h2 : n ≤ rs.length) :
    (rs.take n).getLast? = some (rs.get ⟨n - 1, by omega⟩) := by
  rw [List.getLast?_eq_getElem?]
  have hlen : (rs.take n).length = n := by simp [List.length_take]; omega
  rw [hlen, List.getElem?_take, if_pos (by omega)]
  rw [List.getElem?_eq_getElem (by omega : n - 1 < rs.length)]
  simp [List.get_eq_getElem]

/-- The first element of a non-trivial suffix. -/
theorem head?_drop_eq (rs : List Rng) (n : Nat) (h : n < rs.length) :
    (rs.drop n).head? = some (rs.get ⟨n, h⟩) := by
  rw [List.head?_eq_getElem?, List.getElem?_drop]
  rw [show n + 0 = n by omega, List.getElem?_eq_getElem h]
  simp [List.get_eq_getElem]

/-- Canonicity of a splice `take a ++ mid ++ drop b`, given canonicity of the
pieces and the gap conditions at the two seams. -/
theorem canon_splice (rs : List Rng) (a b : Nat) (mid : List Rng)
    (hC : Canon rs) (hab : a ≤ b) (hb : b ≤ rs.length)
    (hmidC : Canon mid)
    (hseamL : ∀ (ha : 0 < a) (x : Rng), mid.head? = some x →
      (rs.get ⟨a - 1, by omega⟩).stop + 1 < x.start)
    (hseamR : ∀ (hblen : b < rs.length) (x : Rng), mid.getLast? = some x →
      x.stop + 1 < (rs.get ⟨b, hblen⟩).start)
    (hseam0 : mid = [] → ∀ (ha : 0 < a) (hblen : b < rs.length),
      (rs.get ⟨a - 1, by omega⟩).stop + 1 < (rs.get ⟨b, hblen⟩).start) :
    Canon (rs.take a ++ mid ++ rs.drop b) := by
  constructor
  · intro r hr
    rcases List.mem_append.mp hr with hr1 | hr2
    · rcases List.mem_append.mp hr1 with hr3 | hr4
      · exact hC.1 r (List.mem_of_mem_take hr3)
      · exact hmidC.1 r hr4
    · exact hC.1 r (List.mem_of_mem_drop hr2)
  · unfold sortedGaps
    rw [List.chain'_append]
    refine ⟨?_, chain'_drop hC.2 b, ?_⟩
    · rw [List.chain'_append]
      refine ⟨chain'_take hC.2 a, hmidC.2, ?_⟩
      intro x hx y hy
      by_cases ha : 0 < a
      · rw [getLast?_take_eq rs a ha (by omega)] at hx
        simp only [Option.mem_def, Option.some.injEq] at hx
        subst hx
        exact hseamL ha y (Option.mem_def.mp hy)
      · have : a = 0 := by omega
        subst this
        simp at hx
    · intro x hx y hy
      by_cases hblen : b < rs.length
      · rw [head?_drop_eq rs b hblen] at hy
        simp only [Option.mem_def, Option.some.injEq] at hy
        subst hy
        by_cases hmid : mid = []
        · subst hmid
          simp only [List.append_nil] at hx
          by_cases ha : 0 < a
          · rw [getLast?_take_eq rs a ha (by omega)] at hx
            simp only [Option.mem_def, Option.some.injEq] at hx
            subst hx
            exact hseam0 rfl ha hblen
          · have : a = 0 := by omega
            subst this
            simp at hx
        · rw [List.getLast?_append_of_ne_nil _ hmid] at hx
          exact hseamR hblen x (Option.mem_def.mp hx)
      · have hdrop : rs.drop b = [] := by
          have : rs.length ≤ b := by omega
          simp [List.drop_eq_nil_iff.mpr this]
        rw [hdrop] at hy
        simp at hy

/-! ## Lemmas: `discardWith` removes exactly `[start, stop]` and stays canonical -/

/-- Bounds of a canonical list, by index. -/
theorem canon_bounds (rs : List Rng) (hC : Canon rs) (j : Nat) (h : j < rs.length) :
    0 ≤ (rs.get ⟨j, h⟩).start ∧ (rs.get ⟨j, h⟩).start ≤ (rs.get ⟨j, h⟩).stop ∧
      (rs.get ⟨j, h⟩).stop ≤ MAX_CHAR :=
  hC.1 _ (List.get_mem rs j h)

/-- Membership in a singleton range list. -/
theorem lmem_single (c x y : Int) : lmem c [(⟨x, y⟩ : Rng)] ↔ x ≤ c ∧ c ≤ y := by
  simp [lmem, rmem]

/-- `discardWith` when both endpoints were found (`sc = ec = true`). -/
theorem discardWith_tt (rs : List Rng) (s e : Int) (si ei : Nat)
    (hC : Canon rs) (hse : s ≤ e)
    (hs : foundAt rs s si) (he : foundAt rs e ei) (hsei : si ≤ ei) :
    Canon (discardWith rs s e si true ei true) ∧
    ∀ c, lmem c (discardWith rs s e si true ei true) ↔
      lmem c rs ∧ ¬(s ≤ c ∧ c ≤ e) := by
  obtain ⟨hsilen, hss, hes⟩ := hs
  obtain ⟨heilen, hes2, hee⟩ := he
  have hgd_si : rs.getD si ⟨0, 0⟩ = rs.get ⟨si, hsilen⟩ := getD_lt rs si hsilen _
  have hgd_ei : rs.getD ei ⟨0, 0⟩ = rs.get ⟨ei, heilen⟩ := getD_lt rs ei heilen _
  have hbsi := canon_bounds rs hC si hsilen
  have hbei := canon_bounds rs hC ei heilen
  have hout : discardWith rs s e si true ei true =
      rs.take si ++
        ((if (rs.get ⟨si, hsilen⟩).start ≠ s then
            [⟨(rs.get ⟨si, hsilen⟩).start, s - 1⟩] else []) ++
         (if (rs.get ⟨ei, heilen⟩).stop ≠ e then
            [⟨e + 1, (rs.get ⟨ei, heilen⟩).stop⟩] else [])) ++
        rs.drop (ei + 1) := by
    unfold discardWith
    rw [if_neg (by simp)]
    simp only [hgd_si, hgd_ei, eq_self_iff_true, true_and, if_true]
  rw [hout]
  -- seam facts
  have hmidC : Canon ((if (rs.get ⟨si, hsilen⟩).start ≠ s then
      [⟨(rs.get ⟨si, hsilen⟩).start, s - 1⟩] else []) ++
      (if (rs.get ⟨ei, heilen⟩).stop ≠ e then
      [⟨e + 1, (rs.get ⟨ei, heilen⟩).stop⟩] else [])) := by
    constructor
    · intro r hr
      rcases List.mem_append.mp hr with h1 | h2
      · by_cases hne : (rs.get ⟨si, hsilen⟩).start ≠ s
        · rw [if_pos hne] at h1
          simp only [List.mem_singleton] at h1
          subst h1
          refine ⟨?_, ?_, ?_⟩ <;> (dsimp only; omega)
        · rw [if_neg hne] at h1; cases h1
      · by_cases hne : (rs.get ⟨ei, heilen⟩).stop ≠ e
        · rw [if_pos hne] at h2
          simp only [List.mem_singleton] at h2
          subst h2
          refine ⟨?_, ?_, ?_⟩ <;> (dsimp only; omega)
        · rw [if_neg hne] at h2; cases h2
    · unfold sortedGaps
      by_cases hne1 : (rs.get ⟨si, hsilen⟩).start ≠ s
      · by_cases hne2 : (rs.get ⟨ei, heilen⟩).stop ≠ e
        · rw [if_pos hne1, if_pos hne2]
          simp only [List.singleton_append]
          refine List.chain'_pair.mpr ?_
          dsimp only
          omega
        · rw [if_pos hne1, if_neg hne2]
          simp
      · by_cases hne2 : (rs.get ⟨ei, heilen⟩).stop ≠ e
        · rw [if_neg hne1, if_pos hne2]
          simp
        · rw [if_neg hne1, if_neg hne2]
          simp
  refine ⟨canon_splice rs si (ei + 1)
    _ hC (by omega) (by omega) hmidC ?_ ?_ ?_, ?_⟩
  · -- left seam
    intro ha x hx
    have hlt := canon_get_lt rs hC (si - 1) si (by omega) hsilen (by omega)
    by_cases hne1 : (rs.get ⟨si, hsilen⟩).start ≠ s
    · rw [if_pos hne1, List.singleton_append, List.head?_cons] at hx
      injection hx with hx
      subst hx
      dsimp only
      omega
    · rw [if_neg hne1, List.nil_append] at hx
      by_cases hne2 : (rs.get ⟨ei, heilen⟩).stop ≠ e
      · rw [if_pos hne2, List.head?_cons] at hx
        injection hx with hx
        subst hx
        dsimp only
        simp only [not_not] at hne1
        omega
      · rw [if_neg hne2] at hx; cases hx
  · -- right seam
    intro hblen x hx
    have hlt := canon_get_lt rs hC ei (ei + 1) heilen hblen (by omega)
    by_cases hne2 : (rs.get ⟨ei, heilen⟩).stop ≠ e
    · rw [List.getLast?_append_of_ne_nil _ (by rw [if_pos hne2]; simp), if_pos hne2,
        List.getLast?_singleton] at hx
      injection hx with hx
      subst hx
      dsimp only
      omega
    · rw [if_neg hne2, List.append_nil] at hx
      by_cases hne1 : (rs.get ⟨si, hsilen⟩).start ≠ s
      · rw [if_pos hne1, List.getLast?_singleton] at hx
        injection hx with hx
        subst hx
        dsimp only
        simp only [not_not] at hne2
        omega
      · rw [if_neg hne1] at hx; cases hx
  · -- both fragments empty
    intro hmid ha hblen
    have hlt1 := canon_get_lt rs hC (si - 1) si (by omega) hsilen (by omega)
    have hlt2 := canon_get_lt rs hC ei (ei + 1) heilen hblen (by omega)
    have hlt3 : (rs.get ⟨si - 1, by omega⟩).stop + 1 <
        (rs.get ⟨ei, heilen⟩).start + 1 := by
      rcases Nat.eq_or_lt_of_le hsei with hq | hq
      · subst hq; omega
      · have := canon_get_lt rs hC (si - 1) ei (by omega) heilen (by omega)
        omega
    omega
  · -- membership
    intro c
    rw [lmem_splice, lmem_iff_index c rs]
    constructor
    · rintro (⟨j, h, hj, hm⟩ | hmid | ⟨j, h, hj, hm⟩)
      · have hlt := canon_get_lt rs hC j si h hsilen hj
        exact ⟨⟨j, h, hm⟩, by obtain ⟨hm1, hm2⟩ := hm; omega⟩
      · rcases lmem_append c _ _ |>.mp hmid with h1 | h2
        · by_cases hne1 : (rs.get ⟨si, hsilen⟩).start ≠ s
          · rw [if_pos hne1] at h1
            rw [lmem_single] at h1
            refine ⟨⟨si, hsilen, by omega, by omega⟩, by omega⟩
          · rw [if_neg hne1] at h1; cases h1.choose_spec.1
        · by_cases hne2 : (rs.get ⟨ei, heilen⟩).stop ≠ e
          · rw [if_pos hne2] at h2
            rw [lmem_single] at h2
            refine ⟨⟨ei, heilen, by omega, by omega⟩, by omega⟩
          · rw [if_neg hne2] at h2; cases h2.choose_spec.1
      · have hlt := canon_get_lt rs hC ei j heilen h (by omega)
        exact ⟨⟨j, h, hm⟩, by obtain ⟨hm1, hm2⟩ := hm; omega⟩
    · rintro ⟨⟨j, h, hm⟩, hout2⟩
      obtain ⟨hm1, hm2⟩ := hm
      by_cases hj1 : j < si
      · exact Or.inl ⟨j, h, hj1, hm1, hm2⟩
      · by_cases hj2 : ei + 1 ≤ j
        · exact Or.inr (Or.inr ⟨j, h, hj2, hm1, hm2⟩)
        · -- si ≤ j ≤ ei
          have hjsi : si ≤ j := by omega
          have hjei : j ≤ ei := by omega
          refine Or.inr (Or.inl ?_)
          rw [lmem_append]
          by_cases hcs : c < s
          · -- c is in the kept lower part of rs[si]
            have hjeq : j = si := by
              by_contra hne
              have hlt := canon_get_lt rs hC si j hsilen h (by omega)
              omega
            subst hjeq
            refine Or.inl ?_
            have hne1 : (rs.get ⟨j, h⟩).start ≠ s := by omega
            rw [if_pos (by exact_mod_cast hne1)]
            rw [lmem_single]
            omega
          · -- then e < c: in the kept upper part of rs[ei]
            have hce : e < c := by omega
            have hjeq : j = ei := by
              by_contra hne
              have hlt := canon_get_lt rs hC j ei h heilen (by omega)
              omega
            subst hjeq
            refine Or.inr ?_
            have hne2 : (rs.get ⟨j, h⟩).stop ≠ e := by omega
            rw [if_pos (by exact_mod_cast hne2)]
            rw [lmem_single]
            omega

/-- `discardWith` when `start` was found and `stop` was not (`sc = true`,
`ec = false`). -/
theorem discardWith_tf (rs : List Rng) (s e : Int) (si ei : Nat)
    (hC : Canon rs) (hse : s ≤ e)
    (hs : foundAt rs s si) (he : insAt rs e ei) (hsei : si ≤ ei) :
    Canon (discardWith rs s e si true ei false) ∧
    ∀ c, lmem c (discardWith rs s e si true ei false) ↔
      lmem c rs ∧ ¬(s ≤ c ∧ c ≤ e) := by
  obtain ⟨hsilen, hss, hes⟩ := hs
  obtain ⟨heilen, hbef, haft⟩ := he
  have hgd_si : rs.getD si ⟨0, 0⟩ = rs.get ⟨si, hsilen⟩ := getD_lt rs si hsilen _
  have hbsi := canon_bounds rs hC si hsilen
  have hsiei : si < ei := by
    rcases Nat.eq_or_lt_of_le hsei with hq | hq
    · exfalso
      have := haft si hsilen (by omega)
      omega
    · exact hq
  have hout : discardWith rs s e si true ei false =
      rs.take si ++
        (if (rs.get ⟨si, hsilen⟩).start ≠ s then
            [⟨(rs.get ⟨si, hsilen⟩).start, s - 1⟩] else []) ++
        rs.drop ei := by
    unfold discardWith
    rw [if_neg (by simp)]
    simp only [hgd_si, eq_self_iff_true, true_and, Bool.false_eq_true, false_and,
      if_false, if_true, List.append_nil]
  rw [hout]
  have hmidC : Canon (if (rs.get ⟨si, hsilen⟩).start ≠ s then
      [(⟨(rs.get ⟨si, hsilen⟩).start, s - 1⟩ : Rng)] else []) := by
    by_cases hne1 : (rs.get ⟨si, hsilen⟩).start ≠ s
    · rw [if_pos hne1]
      constructor
      · intro r hr
        simp only [List.mem_singleton] at hr
        subst hr
        refine ⟨?_, ?_, ?_⟩ <;> (dsimp only; omega)
      · exact List.chain'_singleton _
    · rw [if_neg hne1]
      exact ⟨(by intro r hr; cases hr), List.chain'_nil⟩
  refine ⟨canon_splice rs si ei _ hC (by omega) (by omega) hmidC ?_ ?_ ?_, ?_⟩
  · -- left seam
    intro ha x hx
    have hlt := canon_get_lt rs hC (si - 1) si (by omega) hsilen (by omega)
    by_cases hne1 : (rs.get ⟨si, hsilen⟩).start ≠ s
    · rw [if_pos hne1, List.head?_cons] at hx
      injection hx with hx
      subst hx
      dsimp only
      omega
    · rw [if_neg hne1] at hx; cases hx
  · -- right seam
    intro hblen x hx
    have hafte := haft ei hblen (le_refl ei)
    by_cases hne1 : (rs.get ⟨si, hsilen⟩).start ≠ s
    · rw [if_pos hne1, List.getLast?_singleton] at hx
      injection hx with hx
      subst hx
      dsimp only
      omega
    · rw [if_neg hne1] at hx; cases hx
  · -- empty fragment
    intro hmid ha hblen
    have hlt := canon_get_lt rs hC (si - 1) si (by omega) hsilen (by omega)
    have hafte := haft ei hblen (le_refl ei)
    omega
  · intro c
    rw [lmem_splice, lmem_iff_index c rs]
    constructor
    · rintro (⟨j, h, hj, hm⟩ | hmid | ⟨j, h, hj, hm⟩)
      · have hlt := canon_get_lt rs hC j si h hsilen hj
        exact ⟨⟨j, h, hm⟩, by obtain ⟨hm1, hm2⟩ := hm; omega⟩
      · by_cases hne1 : (rs.get ⟨si, hsilen⟩).start ≠ s
        · rw [if_pos hne1, lmem_single] at hmid
          refine ⟨⟨si, hsilen, by omega, by omega⟩, by omega⟩
        · rw [if_neg hne1] at hmid
          cases hmid.choose_spec.1
      · have hafter := haft j h hj
        exact ⟨⟨j, h, hm⟩, by obtain ⟨hm1, hm2⟩ := hm; omega⟩
    · rintro ⟨⟨j, h, hm⟩, hout2⟩
      obtain ⟨hm1, hm2⟩ := hm
      by_cases hj1 : j < si
      · exact Or.inl ⟨j, h, hj1, hm1, hm2⟩
      · by_cases hj2 : ei ≤ j
        · exact Or.inr (Or.inr ⟨j, h, hj2, hm1, hm2⟩)
        · have hjsi : si ≤ j := by omega
          have hjei : j < ei := by omega
          refine Or.inr (Or.inl ?_)
          have hbefj := hbef j h hjei
          have hjeq : j = si := by
            by_contra hne
            have hlt := canon_get_lt rs hC si j hsilen h (by omega)
            omega
          subst hjeq
          have hne1 : (rs.get ⟨j, h⟩).start ≠ s := by omega
          rw [if_pos (by exact_mod_cast hne1), lmem_single]
          omega

/-- `discardWith` when `start` was not found and `stop` was (`sc = false`,
`ec = true`). -/
theorem discardWith_ft (rs : List Rng) (s e : Int) (si ei : Nat)
    (hC : Canon rs) (hse : s ≤ e)
    (hs : insAt rs s si) (he : foundAt rs e ei) (hsei : si ≤ ei) :
    Canon (discardWith rs s e si false ei true) ∧
    ∀ c, lmem c (discardWith rs s e si false ei true) ↔
      lmem c rs ∧ ¬(s ≤ c ∧ c ≤ e) := by
  obtain ⟨hsilen, hbef, haft⟩ := hs
  obtain ⟨heilen, hes2, hee⟩ := he
  have hgd_ei : rs.getD ei ⟨0, 0⟩ = rs.get ⟨ei, heilen⟩ := getD_lt rs ei heilen _
  have hbei := canon_bounds rs hC ei heilen
  have hout : discardWith rs s e si false ei true =
      rs.take si ++
        (if (rs.get ⟨ei, heilen⟩).stop ≠ e then
            [⟨e + 1, (rs.get ⟨ei, heilen⟩).stop⟩] else []) ++
        rs.drop (ei + 1) := by
    unfold discardWith
    rw [if_neg (by simp)]
    simp only [hgd_ei, eq_self_iff_true, true_and, Bool.false_eq_true, false_and,
      if_false, if_true, List.nil_append]
  rw [hout]
  have hmidC : Canon (if (rs.get ⟨ei, heilen⟩).stop ≠ e then
      [(⟨e + 1, (rs.get ⟨ei, heilen⟩).stop⟩ : Rng)] else []) := by
    by_cases hne2 : (rs.get ⟨ei, heilen⟩).stop ≠ e
    · rw [if_pos hne2]
      constructor
      · intro r hr
        simp only [List.mem_singleton] at hr
        subst hr
        refine ⟨?_, ?_, ?_⟩ <;> (dsimp only; omega)
      · exact List.chain'_singleton _
    · rw [if_neg hne2]
      exact ⟨(by intro r hr; cases hr), List.chain'_nil⟩
  refine ⟨canon_splice rs si (ei + 1) _ hC (by omega) (by omega) hmidC ?_ ?_ ?_, ?_⟩
  · -- left seam
    intro ha x hx
    have hbefs := hbef (si - 1) (by omega) (by omega)
    by_cases hne2 : (rs.get ⟨ei, heilen⟩).stop ≠ e
    · rw [if_pos hne2, List.head?_cons] at hx
      injection hx with hx
      subst hx
      dsimp only
      omega
    · rw [if_neg hne2] at hx; cases hx
  · -- right seam
    intro hblen x hx
    have hlt := canon_get_lt rs hC ei (ei + 1) heilen hblen (by omega)
    by_cases hne2 : (rs.get ⟨ei, heilen⟩).stop ≠ e
    · rw [if_pos hne2, List.getLast?_singleton] at hx
      injection hx with hx
      subst hx
      dsimp only
      omega
    · rw [if_neg hne2] at hx; cases hx
  · -- empty fragment
    intro hmid ha hblen
    have hbefs := hbef (si - 1) (by omega) (by omega)
    have hlt := canon_get_lt rs hC ei (ei + 1) heilen hblen (by omega)
    omega
  · intro c
    rw [lmem_splice, lmem_iff_index c rs]
    constructor
    · rintro (⟨j, h, hj, hm⟩ | hmid | ⟨j, h, hj, hm⟩)
      · have hbefj := hbef j h hj
        exact ⟨⟨j, h, hm⟩, by obtain ⟨hm1, hm2⟩ := hm; omega⟩
      · by_cases hne2 : (rs.get ⟨ei, heilen⟩).stop ≠ e
        · rw [if_pos hne2, lmem_single] at hmid
          refine ⟨⟨ei, heilen, by omega, by omega⟩, by omega⟩
        · rw [if_neg hne2] at hmid
          cases hmid.choose_spec.1
      · have hlt := canon_get_lt rs hC ei j heilen h (by omega)
        exact ⟨⟨j, h, hm⟩, by obtain ⟨hm1, hm2⟩ := hm; omega⟩
    · rintro ⟨⟨j, h, hm⟩, hout2⟩
      obtain ⟨hm1, hm2⟩ := hm
      by_cases hj1 : j < si
      · exact Or.inl ⟨j, h, hj1, hm1, hm2⟩
      · by_cases hj2 : ei + 1 ≤ j
        · exact Or.inr (Or.inr ⟨j, h, hj2, hm1, hm2⟩)
        · have hjsi : si ≤ j := by omega
          have hjei : j ≤ ei := by omega
          refine Or.inr (Or.inl ?_)
          have hafts := haft j h hjsi
          have hce : e < c := by omega
          have hjeq : j = ei := by
            by_contra hne
            have hlt := canon_get_lt rs hC j ei h heilen (by omega)
            omega
          subst hjeq
          have hne2 : (rs.get ⟨j, h⟩).stop ≠ e := by omega
          rw [if_pos (by exact_mod_cast hne2), lmem_single]
          omega

/-- `discardWith` when neither endpoint was found (`sc = ec = false`). -/
theorem discardWith_ff (rs : List Rng) (s e : Int) (si ei : Nat)
    (hC : Canon rs) (hse : s ≤ e)
    (hs : insAt rs s si) (he : insAt rs e ei) (hsei : si ≤ ei) :
    Canon (discardWith rs s e si false ei false) ∧
    ∀ c, lmem c (discardWith rs s e si false ei false) ↔
      lmem c rs ∧ ¬(s ≤ c ∧ c ≤ e) := by
  obtain ⟨hsilen, hbefs, hafts⟩ := hs
  obtain ⟨heilen, hbefe, hafte⟩ := he
  by_cases hsiei : si = ei
  · have hnomem : ∀ c, s ≤ c → c ≤ e → ¬ lmem c rs := by
      intro c hc1 hc2 hmem
      obtain ⟨j, h, hm1, hm2⟩ := (lmem_iff_index c rs).mp hmem
      by_cases hj : j < si
      · have := hbefs j h hj
        omega
      · have := hafte j h (by omega)
        omega
    have hout : discardWith rs s e si false ei false = rs := by
      unfold discardWith
      rw [if_pos (by simp [hsiei])]
    rw [hout]
    refine ⟨hC, ?_⟩
    intro c
    constructor
    · intro hmem
      refine ⟨hmem, ?_⟩
      intro ⟨hc1, hc2⟩
      exact hnomem c hc1 hc2 hmem
    · exact fun h => h.1
  · have hout : discardWith rs s e si false ei false =
        rs.take si ++ [] ++ rs.drop ei := by
      unfold discardWith
      rw [if_neg (by simp [hsiei])]
      simp only [Bool.false_eq_true, false_and, if_false, List.append_nil]
    rw [hout]
    have hsiei2 : si < ei := by omega
    refine ⟨canon_splice rs si ei [] hC (by omega) (by omega)
      ⟨(by intro r hr; cases hr), List.chain'_nil⟩
      (by intro _ x hx; cases hx) (by intro _ x hx; cases hx) ?_, ?_⟩
    · intro _ ha hblen
      have h1 := hbefs (si - 1) (by omega) (by omega)
      have h2 := hafte ei hblen (le_refl ei)
      omega
    · intro c
      rw [lmem_splice, lmem_iff_index c rs]
      constructor
      · rintro (⟨j, h, hj, hm⟩ | hmid | ⟨j, h, hj, hm⟩)
        · have := hbefs j h hj
          exact ⟨⟨j, h, hm⟩, by obtain ⟨hm1, hm2⟩ := hm; omega⟩
        · cases hmid.choose_spec.1
        · have := hafte j h hj
          exact ⟨⟨j, h, hm⟩, by obtain ⟨hm1, hm2⟩ := hm; omega⟩
      · rintro ⟨⟨j, h, hm⟩, hout2⟩
        obtain ⟨hm1, hm2⟩ := hm
        by_cases hj1 : j < si
        · exact Or.inl ⟨j, h, hj1, hm1, hm2⟩
        · by_cases hj2 : ei ≤ j
          · exact Or.inr (Or.inr ⟨j, h, hj2, hm1, hm2⟩)
          · exfalso
            have := hafts j h (by omega)
            have := hbefe j h (by omega)
            omega

/-- Combined specification of `discardWith` for any search outcome: the result
is canonical and represents the set minus `[s, e]`. -/
theorem discardWith_spec (rs : List Rng) (s e : Int) (si ei : Nat) (sc ec : Bool)
    (hC : Canon rs) (hse : s ≤ e)
    (hs : searchRes rs s (si, sc)) (he : searchRes rs e (ei, ec)) (hsei : si ≤ ei) :
    Canon (discardWith rs s e si sc ei ec) ∧
    ∀ c, lmem c (discardWith rs s e si sc ei ec) ↔
      lmem c rs ∧ ¬(s ≤ c ∧ c ≤ e) := by
  cases sc <;> cases ec <;>
    simp only [searchRes, if_true, if_false] at hs he
  · exact discardWith_ff rs s e si ei hC hse hs he hsei
  · exact discardWith_ft rs s e si ei hC hse hs he hsei
  · exact discardWith_tf rs s e si ei hC hse hs he hsei
  · exact discardWith_tt rs s e si ei hC hse hs he hsei

/-- `_discard_range` without hints: computes the searches itself, succeeds, and
removes exactly `[s, e]`. -/
theorem discard_nohint_spec (rs : List Rng) (s e : Int) (hC : Canon rs) (hse : s ≤ e) :
    ∃ out, _discard_range rs s e none none = .ok out ∧ Canon out ∧
      ∀ c, lmem c out ↔ lmem c rs ∧ ¬(s ≤ c ∧ c ≤ e) := by
  obtain ⟨⟨si, sc⟩, h1, hlen1, hres1⟩ := search_full rs s hC
  have hpre : ∀ j (h : j < rs.length), j < si → (rs.get ⟨j, h⟩).stop < e := by
    intro j h hj
    cases sc
    · simp only [searchRes, Bool.false_eq_true, if_false] at hres1
      have := hres1.2.1 j h hj
      omega
    · simp only [searchRes, if_true] at hres1
      obtain ⟨hsilen, hss, hes⟩ := hres1
      have := canon_get_lt rs hC j si h hsilen hj
      omega
  obtain ⟨⟨ei, ec⟩, h2, hlo2, hlen2, hres2⟩ := search_from rs e si hC hlen1 hpre
  have hspec := discardWith_spec rs s e si ei sc ec hC hse hres1 hres2 hlo2
  refine ⟨discardWith rs s e si sc ei ec, ?_, hspec.1, hspec.2⟩
  simp only [_discard_range, h1, h2, bind, pure, Except.bind, Except.pure]

/-- `_discard_range` of a single contained point, with the hints `CharSet`
operations pass: succeeds and removes exactly `{c}`. -/
theorem discard_point_spec (rs : List Rng) (c : Int) (idx : Nat)
    (hC : Canon rs) (hfound : foundAt rs c idx) :
    ∃ out, _discard_range rs c c (some (idx, true)) (some (idx, true)) = .ok out ∧
      Canon out ∧ ∀ x, lmem x out ↔ lmem x rs ∧ x ≠ c := by
  have hres : searchRes rs c ((idx, true) : Nat × Bool) := by
    simp only [searchRes, if_true]
    exact hfound
  have hspec := discardWith_spec rs c c idx idx true true hC (le_refl c) hres hres
    (le_refl idx)
  refine ⟨discardWith rs c c idx true idx true, ?_, hspec.1, ?_⟩
  · simp only [_discard_range, bind, pure, Except.bind, Except.pure]
  · intro x
    rw [hspec.2 x]
    constructor
    · rintro ⟨h1, h2⟩
      exact ⟨h1, by omega⟩
    · rintro ⟨h1, h2⟩
      exact ⟨h1, by omega⟩

/-- `_add_range` of a single uncontained point, with the hints `CharSet.add`
passes: succeeds and the result is canonical. -/
theorem add_point_spec (rs : List Rng) (c : Int) (idx : Nat)
    (hC : Canon rs) (hc0 : 0 ≤ c) (hcM : c ≤ MAX_CHAR) (hins : insAt rs c idx) :
    ∃ out, _add_range rs c c (some (idx, false)) (some (idx, false)) = .ok out ∧
      Canon out := by
  obtain ⟨hilen, hbef, haft⟩ := hins
  have hrun : _add_range rs c c (some (idx, false)) (some (idx, false)) = .ok
      (rs.take (if 0 < idx ∧ (rs.getD (idx - 1) ⟨0, 0⟩).stop + 1 = c
          then idx - 1 else idx) ++
        [⟨(if 0 < idx ∧ (rs.getD (idx - 1) ⟨0, 0⟩).stop + 1 = c
            then (rs.getD (idx - 1) ⟨0, 0⟩).start else c),
          (if idx < rs.length ∧ (rs.getD idx ⟨0, 0⟩).start = c + 1
            then (rs.getD idx ⟨0, 0⟩).stop else c)⟩] ++
        rs.drop (if idx < rs.length ∧ (rs.getD idx ⟨0, 0⟩).start = c + 1
          then idx + 1 else idx)) := by
    simp only [_add_range, bind, pure, Except.bind, Except.pure,
      Bool.false_eq_true, false_and, and_false, if_false, eq_self_iff_true]
  refine ⟨_, hrun, ?_⟩
  by_cases hml : 0 < idx ∧ (rs.getD (idx - 1) ⟨0, 0⟩).stop + 1 = c <;>
    by_cases hmr : idx < rs.length ∧ (rs.getD idx ⟨0, 0⟩).start = c + 1
  · -- pos.pos
    obtain ⟨hml1, hml2⟩ := hml
    obtain ⟨hmr1, hmr2⟩ := hmr
    have hg1 : rs.getD (idx - 1) ⟨0, 0⟩ = rs.get ⟨idx - 1, by omega⟩ :=
      getD_lt rs (idx - 1) (by omega) _
    have hg2 : rs.getD idx ⟨0, 0⟩ = rs.get ⟨idx, hmr1⟩ := getD_lt rs idx hmr1 _
    rw [if_pos ⟨hml1, hml2⟩, if_pos ⟨hml1, hml2⟩, if_pos ⟨hmr1, hmr2⟩,
      if_pos ⟨hmr1, hmr2⟩, hg1, hg2]
    rw [hg1] at hml2
    rw [hg2] at hmr2
    have hb1 := canon_bounds rs hC (idx - 1) (by omega)
    have hb2 := canon_bounds rs hC idx hmr1
    refine canon_splice rs (idx - 1) (idx + 1) _ hC (by omega) (by omega) ?_ ?_ ?_ ?_
    · refine ⟨?_, List.chain'_singleton _⟩
      intro r hr
      simp only [List.mem_singleton] at hr
      subst hr
      refine ⟨?_, ?_, ?_⟩ <;> (dsimp only; omega)
    · intro ha x hx
      simp only [List.head?_cons] at hx
      injection hx with hx
      subst hx
      have := canon_get_lt rs hC (idx - 1 - 1) (idx - 1) (by omega) (by omega) (by omega)
      dsimp only
      omega
    · intro hblen x hx
      simp only [List.getLast?_singleton] at hx
      injection hx with hx
      subst hx
      have := canon_get_lt rs hC idx (idx + 1) hmr1 hblen (by omega)
      dsimp only
      omega
    · intro h; cases h
  · -- pos.neg
    obtain ⟨hml1, hml2⟩ := hml
    have hg1 : rs.getD (idx - 1) ⟨0, 0⟩ = rs.get ⟨idx - 1, by omega⟩ :=
      getD_lt rs (idx - 1) (by omega) _
    rw [if_pos ⟨hml1, hml2⟩, if_pos ⟨hml1, hml2⟩, if_neg hmr, if_neg hmr, hg1]
    rw [hg1] at hml2
    have hb1 := canon_bounds rs hC (idx - 1) (by omega)
    refine canon_splice rs (idx - 1) idx _ hC (by omega) (by omega) ?_ ?_ ?_ ?_
    · refine ⟨?_, List.chain'_singleton _⟩
      intro r hr
      simp only [List.mem_singleton] at hr
      subst hr
      refine ⟨?_, ?_, ?_⟩ <;> (dsimp only; omega)
    · intro ha x hx
      simp only [List.head?_cons] at hx
      injection hx with hx
      subst hx
      have := canon_get_lt rs hC (idx - 1 - 1) (idx - 1) (by omega) (by omega) (by omega)
      dsimp only
      omega
    · intro hblen x hx
      simp only [List.getLast?_singleton] at hx
      injection hx with hx
      subst hx
      have hg2 : rs.getD idx ⟨0, 0⟩ = rs.get ⟨idx, hblen⟩ := getD_lt rs idx hblen _
      rw [hg2] at hmr
      have haftx := haft idx hblen (le_refl idx)
      have hx2 : ¬ (rs.get ⟨idx, hblen⟩).start = c + 1 := by
        intro hcontra
        exact hmr ⟨hblen, hcontra⟩
      dsimp only
      omega
    · intro h; cases h
  · -- neg.pos
    obtain ⟨hmr1, hmr2⟩ := hmr
    have hg2 : rs.getD idx ⟨0, 0⟩ = rs.get ⟨idx, hmr1⟩ := getD_lt rs idx hmr1 _
    rw [if_neg hml, if_neg hml, if_pos ⟨hmr1, hmr2⟩, if_pos ⟨hmr1, hmr2⟩, hg2]
    rw [hg2] at hmr2
    have hb2 := canon_bounds rs hC idx hmr1
    refine canon_splice rs idx (idx + 1) _ hC (by omega) (by omega) ?_ ?_ ?_ ?_
    · refine ⟨?_, List.chain'_singleton _⟩
      intro r hr
      simp only [List.mem_singleton] at hr
      subst hr
      refine ⟨?_, ?_, ?_⟩ <;> (dsimp only; omega)
    · intro ha x hx
      simp only [List.head?_cons] at hx
      injection hx with hx
      subst hx
      have hg1 : rs.getD (idx - 1) ⟨0, 0⟩ = rs.get ⟨idx - 1, by omega⟩ :=
        getD_lt rs (idx - 1) (by omega) _
      rw [hg1] at hml
      have hbefx := hbef (idx - 1) (by omega) (by omega)
      have hx2 : ¬ (rs.get ⟨idx - 1, by omega⟩).stop + 1 = c := by
        intro hcontra
        exact hml ⟨ha, hcontra⟩
      dsimp only
      omega
    · intro hblen x hx
      simp only [List.getLast?_singleton] at hx
      injection hx with hx
      subst hx
      have := canon_get_lt rs hC idx (idx + 1) hmr1 hblen (by omega)
      dsimp only
      omega
    · intro h; cases h
  · -- neg.neg
    rw [if_neg hml, if_neg hml, if_neg hmr, if_neg hmr]
    refine canon_splice rs idx idx _ hC (le_refl idx) hilen ?_ ?_ ?_ ?_
    · refine ⟨?_, List.chain'_singleton _⟩
      intro r hr
      simp only [List.mem_singleton] at hr
      subst hr
      refine ⟨?_, ?_, ?_⟩ <;> (dsimp only; omega)
    · intro ha x hx
      simp only [List.head?_cons] at hx
      injection hx with hx
      subst hx
      have hg1 : rs.getD (idx - 1) ⟨0, 0⟩ = rs.get ⟨idx - 1, by omega⟩ :=
        getD_lt rs (idx - 1) (by omega) _
      rw [hg1] at hml
      have hbefx := hbef (idx - 1) (by omega) (by omega)
      have hx2 : ¬ (rs.get ⟨idx - 1, by omega⟩).stop + 1 = c := by
        intro hcontra
        exact hml ⟨ha, hcontra⟩
      dsimp only
      omega
    · intro hblen x hx
      simp only [List.getLast?_singleton] at hx
      injection hx with hx
      subst hx
      have hg2 : rs.getD idx ⟨0, 0⟩ = rs.get ⟨idx, hblen⟩ := getD_lt rs idx hblen _
      rw [hg2] at hmr
      have haftx := haft idx hblen (le_refl idx)
      have hx2 : ¬ (rs.get ⟨idx, hblen⟩).start = c + 1 := by
        intro hcontra
        exact hmr ⟨hblen, hcontra⟩
      dsimp only
      omega
    · intro h; cases h

/-- `CInv` makes `__len__` agree with the recomputed sum. -/
theorem cinv_length (s : CS) (h : CInv s) : CS.length s = sumLen s.ranges :=
  h.2


/-- `sortedGaps` head domination: the head ends (with a gap) before every later
range starts. -/
theorem sortedGaps_head_lt (a : Rng) (l : List Rng) (hchain : sortedGaps (a :: l))
    (hbnd : boundedRanges l) : ∀ b ∈ l, a.stop + 1 < b.start := by
  induction l generalizing a with
  | nil => intro b hb; cases hb
  | cons x rest ih =>
    intro b hb
    have hax : a.stop + 1 < x.start := (List.chain'_cons.mp hchain).1
    rcases List.mem_cons.mp hb with hb | hb
    · subst hb; exact hax
    · have hxb := ih x (List.chain'_cons.mp hchain).2
        (fun q hq => hbnd q (List.mem_cons_of_mem x hq)) b hb
      have hxbnd := hbnd x (List.mem_cons_self x rest)
      omega

/-- Full specification of the `_invert` generator, parameterized by the running
`start`: the output is canonical, its ranges start at or after `start`, and it
contains exactly the points of `[start, MAX_CHAR]` missing from the input. -/
theorem invertFrom_spec (rs : List Rng) : ∀ (start : Int), 0 ≤ start →
    boundedRanges rs → sortedGaps rs → (∀ r ∈ rs, start ≤ r.start) →
    Canon (invertFrom start rs) ∧
    (∀ x ∈ invertFrom start rs, start ≤ x.start) ∧
    (∀ c, lmem c (invertFrom start rs) ↔
      start ≤ c ∧ c ≤ MAX_CHAR ∧ ¬ lmem c rs) := by
  induction rs with
  | nil =>
    intro start h0 _ _ _
    unfold invertFrom
    by_cases hs : start ≤ MAX_CHAR
    · rw [if_pos hs]
      refine ⟨⟨?_, List.chain'_singleton _⟩, ?_, ?_⟩
      · intro r hr
        simp only [List.mem_singleton] at hr
        subst hr
        refine ⟨?_, ?_, ?_⟩ <;> (dsimp only; omega)
      · intro x hx
        simp only [List.mem_singleton] at hx
        subst hx
        exact le_refl _
      · intro c
        rw [lmem_single]
        simp [lmem]
    · rw [if_neg hs]
      refine ⟨⟨(by intro r hr; cases hr), List.chain'_nil⟩,
        (by intro x hx; cases hx), ?_⟩
      intro c
      simp [lmem]
      omega
  | cons r rest ih =>
    intro start h0 hbnd hchain hge
    have hrbnd := hbnd r (List.mem_cons_self r rest)
    have hrestbnd : boundedRanges rest := fun x hx => hbnd x (List.mem_cons_of_mem r hx)
    have hrestchain : sortedGaps rest := (List.chain'_cons'.mp hchain).2
    have hrestge : ∀ x ∈ rest, r.stop + 1 ≤ x.start := by
      intro x hx
      have := sortedGaps_head_lt r rest hchain hrestbnd x hx
      omega
    have hih := ih (r.stop + 1) (by omega) hrestbnd hrestchain hrestge
    unfold invertFrom
    by_cases hcase : start ≤ r.start - 1
    · rw [if_pos hcase]
      have hfr : (⟨start, r.start - 1⟩ : Rng).start = start := rfl
      have hfr2 : (⟨start, r.start - 1⟩ : Rng).stop = r.start - 1 := rfl
      refine ⟨⟨?_, ?_⟩, ?_, ?_⟩
      · intro x hx
        rcases List.mem_cons.mp hx with hx | hx
        · subst hx
          refine ⟨?_, ?_, ?_⟩ <;> (dsimp only; omega)
        · exact hih.1.1 x hx
      · unfold sortedGaps
        rw [List.chain'_cons']
        refine ⟨?_, hih.1.2⟩
        intro y hy
        have hge2 := hih.2.1 y (List.mem_of_mem_head? hy)
        rw [hfr2]
        omega
      · intro x hx
        rcases List.mem_cons.mp hx with hx | hx
        · subst hx
          exact le_refl _
        · have := hih.2.1 x hx
          omega
      · intro c
        constructor
        · rintro ⟨x, hx, hm⟩
          rcases List.mem_cons.mp hx with hx | hx
          · subst hx
            obtain ⟨hm1, hm2⟩ := hm
            rw [hfr] at hm1
            rw [hfr2] at hm2
            refine ⟨by omega, by omega, ?_⟩
            rintro ⟨y, hy, hym⟩
            rcases List.mem_cons.mp hy with hy | hy
            · subst hy
              obtain ⟨hy1, hy2⟩ := hym
              omega
            · have := hrestge y hy
              obtain ⟨hy1, hy2⟩ := hym
              omega
          · have := (hih.2.2 c).mp ⟨x, hx, hm⟩
            obtain ⟨h1, h2, h3⟩ := this
            refine ⟨by omega, h2, ?_⟩
            rintro ⟨y, hy, hym⟩
            rcases List.mem_cons.mp hy with hy | hy
            · subst hy
              obtain ⟨hy1, hy2⟩ := hym
              omega
            · exact h3 ⟨y, hy, hym⟩
        · rintro ⟨h1, h2, h3⟩
          by_cases hc2 : c ≤ r.start - 1
          · refine ⟨_, List.mem_cons_self _ _, ?_⟩
            rw [rmem, hfr, hfr2]
            omega
          · have hcr : r.stop + 1 ≤ c := by
              by_contra hcon
              exact h3 ⟨r, List.mem_cons_self r rest, by omega, by omega⟩
            have := (hih.2.2 c).mpr ⟨hcr, h2, fun hm =>
              h3 (by obtain ⟨y, hy, hym⟩ := hm; exact ⟨y, List.mem_cons_of_mem r hy, hym⟩)⟩
            obtain ⟨y, hy, hym⟩ := this
            exact ⟨y, List.mem_cons_of_mem _ hy, hym⟩
    · rw [if_neg hcase]
      have hgeself := hge r (List.mem_cons_self r rest)
      refine ⟨hih.1, ?_, ?_⟩
      · intro x hx
        have := hih.2.1 x hx
        omega
      · intro c
        rw [hih.2.2 c]
        constructor
        · rintro ⟨h1, h2, h3⟩
          refine ⟨by omega, h2, ?_⟩
          rintro ⟨y, hy, hym⟩
          rcases List.mem_cons.mp hy with hy | hy
          · subst hy
            obtain ⟨hy1, hy2⟩ := hym
            omega
          · exact h3 ⟨y, hy, hym⟩
        · rintro ⟨h1, h2, h3⟩
          have hcr : r.stop + 1 ≤ c := by
            by_contra hcon
            exact h3 ⟨r, List.mem_cons_self r rest, by omega, by omega⟩
          refine ⟨hcr, h2, ?_⟩
          rintro ⟨y, hy, hym⟩
          exact h3 ⟨y, List.mem_cons_of_mem r hy, hym⟩

/-- Folding `_discard_range` over a list of valid ranges: succeeds, stays
canonical, and removes exactly the union of the ranges. -/
theorem fold_discard_spec (ds : List Rng) : ∀ (acc : List Rng), Canon acc →
    (∀ d ∈ ds, d.start ≤ d.stop) →
    ∃ out, (ds.foldlM (fun a rng => _discard_range a rng.start rng.stop none none)
        acc = .ok out) ∧ Canon out ∧
      ∀ c, lmem c out ↔ lmem c acc ∧ ∀ d ∈ ds, ¬ rmem c d := by
  induction ds with
  | nil =>
    intro acc hC _
    refine ⟨acc, rfl, hC, ?_⟩
    intro c
    simp
  | cons d rest ih =>
    intro acc hC hvalid
    obtain ⟨mid, hmid, hmidC, hmidsem⟩ :=
      discard_nohint_spec acc d.start d.stop hC (hvalid d (List.mem_cons_self d rest))
    obtain ⟨out, hout, houtC, houtsem⟩ := ih mid hmidC
      (fun x hx => hvalid x (List.mem_cons_of_mem d hx))
    refine ⟨out, ?_, houtC, ?_⟩
    · simp only [List.foldlM_cons, hmid, bind, Except.bind]
      exact hout
    · intro c
      rw [houtsem c, hmidsem c]
      constructor
      · rintro ⟨⟨h1, h2⟩, h3⟩
        refine ⟨h1, ?_⟩
        intro x hx
        rcases List.mem_cons.mp hx with hx | hx
        · subst hx
          intro ⟨hm1, hm2⟩
          exact h2 ⟨hm1, hm2⟩
        · exact h3 x hx
      · rintro ⟨h1, h2⟩
        refine ⟨⟨h1, ?_⟩, ?_⟩
        · intro ⟨hm1, hm2⟩
          exact h2 d (List.mem_cons_self d rest) ⟨hm1, hm2⟩
        · intro x hx
          exact h2 x (List.mem_cons_of_mem d hx)

/-- `_intersection` computes the set intersection and stays canonical. -/
theorem inter_spec (r1 r2 : List Rng) (hC1 : Canon r1) (hC2 : Canon r2) :
    ∃ out, _intersection r1 r2 = .ok out ∧ Canon out ∧
      ∀ c, lmem c out ↔ lmem c r1 ∧ lmem c r2 := by
  have main : ∀ (p1 p2 : List Rng), Canon p1 → Canon p2 →
      ∃ out, ((_invert p2).foldlM
          (fun a rng => _discard_range a rng.start rng.stop none none) p1 = .ok out) ∧
        Canon out ∧ ∀ c, lmem c out ↔ lmem c p1 ∧ lmem c p2 := by
    intro p1 p2 hp1 hp2
    have hinv := invertFrom_spec p2 0 (le_refl 0) hp2.1 hp2.2
      (fun r hr => (hp2.1 r hr).1)
    have hvalid : ∀ d ∈ _invert p2, d.start ≤ d.stop := by
      intro d hd
      exact (hinv.1.1 d hd).2.1
    obtain ⟨out, hout, houtC, houtsem⟩ := fold_discard_spec (_invert p2) p1 hp1 hvalid
    refine ⟨out, hout, houtC, ?_⟩
    intro c
    rw [houtsem c]
    constructor
    · rintro ⟨h1, h2⟩
      refine ⟨h1, ?_⟩
      by_contra hno
      obtain ⟨j, hj, hm1, hm2⟩ := (lmem_iff_index c p1).mp h1
      have hb := canon_bounds p1 hp1 j hj
      have : lmem c (_invert p2) := (hinv.2.2 c).mpr ⟨by omega, by omega, hno⟩
      obtain ⟨y, hy, hym⟩ := this
      exact h2 y hy hym
    · rintro ⟨h1, h2⟩
      refine ⟨h1, ?_⟩
      intro d hd hdm
      have : lmem c (_invert p2) := ⟨d, hd, hdm⟩
      have := (hinv.2.2 c).mp this
      exact this.2.2 h2
  unfold _intersection
  by_cases hlen : r1.length < r2.length
  · rw [if_pos hlen]
    obtain ⟨out, hout, houtC, houtsem⟩ := main r2 r1 hC2 hC1
    refine ⟨out, hout, houtC, ?_⟩
    intro c
    rw [houtsem c]
    exact and_comm
  · rw [if_neg hlen]
    exact main r1 r2 hC1 hC2

/-- A canonical, non-empty range list has a member (the start of its first
range). -/
theorem canon_nil_iff (rs : List Rng) (hC : Canon rs) :
    rs = [] ↔ ∀ c, ¬ lmem c rs := by
  constructor
  · intro h
    subst h
    intro c hm
    obtain ⟨y, hy, _⟩ := hm
    cases hy
  · intro h
    cases rs with
    | nil => rfl
    | cons r rest =>
      exfalso
      have hb := hC.1 r (List.mem_cons_self r rest)
      exact h r.start ⟨r, List.mem_cons_self r rest, le_refl _, by omega⟩

/-- The `_isdisjoint` loop: returns `ok`, with `true` exactly when no code
point lies in both lists. -/
theorem isdLoop_spec (r1 : List Rng) (hC : Canon r1) :
    ∀ (r2 : List Rng), (∀ r ∈ r2, r.start ≤ r.stop) →
    ∃ b, isdLoop r1 r2 = .ok b ∧
      (b = true ↔ ∀ c, ¬(lmem c r1 ∧ lmem c r2)) := by
  intro r2
  induction r2 with
  | nil =>
    intro _
    refine ⟨true, rfl, ?_⟩
    simp [lmem]
  | cons rng rest ih =>
    intro hvalid
    have hv := hvalid rng (List.mem_cons_self rng rest)
    obtain ⟨⟨si, sc⟩, h1, hlen1, hres1⟩ := search_full r1 rng.start hC
    have hpre : ∀ j (h : j < r1.length), j < si → (r1.get ⟨j, h⟩).stop < rng.stop := by
      intro j h hj
      cases sc
      · simp only [searchRes, Bool.false_eq_true, if_false] at hres1
        have := hres1.2.1 j h hj
        omega
      · simp only [searchRes, if_true] at hres1
        obtain ⟨hsilen, hss, hes⟩ := hres1
        have := canon_get_lt r1 hC j si h hsilen hj
        omega
    obtain ⟨⟨ei, ec⟩, h2, hlo2, hlen2, hres2⟩ := search_from r1 rng.stop si hC hlen1 hpre
    obtain ⟨brest, hrest, hrestiff⟩ := ih (fun x hx => hvalid x (List.mem_cons_of_mem rng hx))
    by_cases hcond : si ≠ ei ∨ sc = true ∨ ec = true
    · -- early `return False`: the current range meets r1
      have hrun : isdLoop r1 (rng :: rest) = .ok false := by
        simp only [isdLoop, h1, h2, bind, pure, Except.bind, Except.pure]
        rw [if_pos (by exact_mod_cast hcond)]
      refine ⟨false, hrun, ?_⟩
      have hmeet : ∃ c, lmem c r1 ∧ rmem c rng := by
        by_cases hsc : sc = true
        · subst hsc
          simp only [searchRes, if_true] at hres1
          obtain ⟨hsilen, hss, hes⟩ := hres1
          exact ⟨rng.start, ⟨r1.get ⟨si, hsilen⟩, List.get_mem r1 si hsilen, hss, hes⟩,
            le_refl _, hv⟩
        · by_cases hec : ec = true
          · subst hec
            simp only [searchRes, if_true] at hres2
            obtain ⟨heilen, hse2, hee⟩ := hres2
            exact ⟨rng.stop, ⟨r1.get ⟨ei, heilen⟩, List.get_mem r1 ei heilen, hse2, hee⟩,
              hv, le_refl _⟩
          · have hsc2 : sc = false := by cases sc <;> simp_all
            have hec2 : ec = false := by cases ec <;> simp_all
            subst hsc2; subst hec2
            simp only [searchRes, Bool.false_eq_true, if_false] at hres1 hres2
            have hne : si ≠ ei := by
              rcases hcond with h | h | h
              · exact h
              · cases h
              · cases h
            have hsilt : si < r1.length := by omega
            have hb := canon_bounds r1 hC si hsilt
            have hgt := hres1.2.2 si hsilt (le_refl si)
            have hlt := hres2.2.1 si hsilt (by omega)
            exact ⟨(r1.get ⟨si, hsilt⟩).start,
              ⟨r1.get ⟨si, hsilt⟩, List.get_mem r1 si hsilt, le_refl _, by omega⟩,
              by omega, by omega⟩
      obtain ⟨c, hc1, hc2⟩ := hmeet
      constructor
      · intro h; cases h
      · intro hall
        exact absurd ⟨hc1, ⟨rng, List.mem_cons_self rng rest, hc2⟩⟩ (hall c)
    · -- the current range misses r1 entirely; recurse
      push_neg at hcond
      obtain ⟨heq, hsc, hec⟩ := hcond
      have hsc2 : sc = false := by cases sc <;> simp_all
      have hec2 : ec = false := by cases ec <;> simp_all
      subst hsc2; subst hec2; subst heq
      simp only [searchRes, Bool.false_eq_true, if_false] at hres1 hres2
      have hrun : isdLoop r1 (rng :: rest) = isdLoop r1 rest := by
        simp only [isdLoop, h1, h2, bind, pure, Except.bind, Except.pure]
        rw [if_neg (by rintro (h | h | h) <;> simp_all)]
      have hnomeet : ∀ c, rmem c rng → ¬ lmem c r1 := by
        intro c hcm hmem
        obtain ⟨j, hj, hm1, hm2⟩ := (lmem_iff_index c r1).mp hmem
        obtain ⟨hcm1, hcm2⟩ := hcm
        by_cases hjlt : j < si
        · have := hres1.2.1 j hj hjlt
          omega
        · have := hres2.2.2 j hj (by omega)
          omega
      refine ⟨brest, by rw [hrun]; exact hrest, ?_⟩
      rw [hrestiff]
      constructor
      · intro h c ⟨hc1, hc2⟩
        obtain ⟨y, hy, hym⟩ := hc2
        rcases List.mem_cons.mp hy with hy | hy
        · subst hy
          exact hnomeet c hym hc1
        · exact h c ⟨hc1, ⟨y, hy, hym⟩⟩
      · intro h c ⟨hc1, hc2⟩
        obtain ⟨y, hy, hym⟩ := hc2
        exact h c ⟨hc1, ⟨y, List.mem_cons_of_mem rng hy, hym⟩⟩

/-- `_isdisjoint` between canonical lists: returns `ok`, `true` iff the sets
are disjoint. -/
theorem isdisjoint_spec (r1 r2 : List Rng) (hC1 : Canon r1) (hC2 : Canon r2) :
    ∃ b, _isdisjoint r1 r2 = .ok b ∧
      (b = true ↔ ∀ c, ¬(lmem c r1 ∧ lmem c r2)) := by
  unfold _isdisjoint
  by_cases hlen : r1.length < r2.length
  · rw [if_pos hlen]
    obtain ⟨b, hb, hbiff⟩ := isdLoop_spec r2 hC2 r1 (fun r hr => (hC1.1 r hr).2.1)
    refine ⟨b, hb, ?_⟩
    rw [hbiff]
    constructor
    · intro h c ⟨h1, h2⟩
      exact h c ⟨h2, h1⟩
    · intro h c ⟨h1, h2⟩
      exact h c ⟨h2, h1⟩
  · rw [if_neg hlen]
    exact isdLoop_spec r1 hC1 r2 (fun r hr => (hC2.1 r hr).2.1)

/-- Structural equality test used by `BaseCharSet.__eq__` agrees with list
equality. -/
theorem baseEq_iff (r1 r2 : List Rng) : baseEq r1 r2 = true ↔ r1 = r2 := by
  unfold baseEq
  induction r1 generalizing r2 with
  | nil =>
    cases r2 with
    | nil => simp
    | cons y ys => simp
  | cons x xs ih =>
    cases r2 with
    | nil => simp
    | cons y ys =>
      simp only [List.length_cons, List.zip_cons_cons, List.all_cons, Bool.and_eq_true,
        beq_iff_eq, Nat.add_right_cancel_iff, List.cons.injEq]
      constructor
      · rintro ⟨hlen, hxy, hall⟩
        exact ⟨hxy, (ih ys).mp (by simp [hlen, hall])⟩
      · rintro ⟨hxy, hrest⟩
        have h2 := (ih ys).mpr hrest
        simp only [Bool.and_eq_true, beq_iff_eq] at h2
        exact ⟨by rw [hrest], hxy, h2.2⟩

/-! ## Claim theorems -/

/-- Claim C1: the claim requires every emitted pair `(D, O)` of
`CharSet.disjoint` to satisfy `D ⊆ Sᵢ ⇔ Sᵢ ∈ O`.  The code violates this:
charset.py:539 pushes the unconsumed remainder of the working range only when
`start < rng.end` (with `start = end + 1`), silently dropping a remainder of
exactly one code point together with its owners.  For the inputs
`S₁ = {0..1}`, `S₂ = {1..1}` the run emits `({0}, [S₁])` and `({1}, [S₂])`;
by the library's own subset test `{1} ⊆ S₁`, yet `S₁` (input index 0) is
absent from the second owner list. -/
theorem c1_disjoint_owner_dropped :
    disjointPy [[⟨0, 1⟩], [⟨1, 1⟩]] = [(⟨0, 0⟩, [0]), (⟨1, 1⟩, [1])] ∧
    _issubset [⟨1, 1⟩] [⟨0, 1⟩] = .ok true ∧
    (0 : Nat) ∉ ([1] : List Nat) :=
  ⟨rfl, rfl, by decide⟩

/-- Claim C2: the claim says `m.dfa()` returns an epsilon-free, unambiguous
machine seeded with the epsilon closure of the start state.  The code cannot
return at all: `mach = self.__class__()` (automaton.py:327) raises `NameError`
inside `Machine.__init__` (automaton.py:100, unqualified `State`), and even
past that, `states.eps_closure(self._start)` (automaton.py:330) passes a
single `State` where `eps_closure` (states.py:68) expects an iterable, a
`TypeError`. -/
theorem c2_dfa_crashes :
    dfaPy c2World c2Mach = .error nameErrorState ∧
    epsClosureOfStatePy c2Mach.start = .error "TypeError: State object is not iterable" :=
  ⟨rfl, rfl⟩

/-- Claim C3: the claim says `match_str(s)` returns a chain of `|s|` MatchChar
transitions with only the last state accepting.  The code raises for every
string: `mach = cls()` hits the `NameError` of `Machine.__init__`
(automaton.py:100), and the loop body itself references the undefined local
`final` (automaton.py:459), so even a repaired constructor raises on the first
character.  Evaluated here on the spec example string `"if"`. -/
theorem c3_match_str_crashes :
    matchStrPy [105, 102] = .error nameErrorState ∧
    matchStrBody c3World c3Mach [105, 102] = .error nameErrorFinal :=
  ⟨rfl, rfl⟩

/-- Claim C4: the claim says symbolic repeat specs succeed and invalid specs
(including negative integer counts) fail with BadRepeat.  The code does
neither: every non-integer spec (symbolic or tuple) evaluates
`other in _match_equiv` (automaton.py:705) — an undefined name — and raises
`NameError`; a bare integer bypasses all validation (automaton.py:701-704),
so `repeat(-1)` returns a machine instead of failing. -/
theorem c4_repeat_validation_broken :
    repeatPy c4World c4Mach (.sym "*") = .error nameErrorMatchEquiv ∧
    repeatPy c4World c4Mach (.pair (some 0) (some 2)) = .error nameErrorMatchEquiv ∧
    (repeatPy c4World c4Mach (.int (-1))).isOk = true :=
  ⟨rfl, rfl, rfl⟩

/-- Claim C5: the claim says `remove(item)` succeeds for a present item given
as a 1-character string.  The code converts the string with `char = ord(item)`
for the search but then passes the original string to `_discard_range`
(charset.py:1107), which evaluates `start - 1` on it (charset.py:261) and
raises `TypeError`.  Here `s = {'a'}` and the item is the string `'a'`
(code point 97): the point is in the set, yet `remove` raises; the same code
point given as an integer removes fine. -/
theorem c5_remove_string_crashes :
    lmem 97 c5Set.ranges ∧
    CS.remove c5Set (.chr 97) =
      .error "TypeError: unsupported operand types for -: str and int" ∧
    CS.remove c5Set (.int 97) = .ok ⟨[], none⟩ :=
  ⟨by decide, rfl, rfl⟩

/-- Claim C6: the claim says that after `lexer.action(sub, ...)` every state of
`sub` — including a final state materialized by unifying `sub`'s accepting
states during the call — belongs to the lexer.  The code absorbs
`sub._states` first (automaton.py:845) and only later evaluates `sub._final`
(automaton.py:857), which adds the unified final to `sub._states` alone.  For
a sub-machine with two accepting states (11 and 12), the unified final 13 ends
up in the sub-machine's state set but not in the lexer's. -/
theorem c6_action_loses_unified_final :
    actionPy c6World c6Lexer c6Sub "KEYWORD" 1 "" none none =
      .ok (c6WorldAfter, c6LexerAfter, c6SubAfter) ∧
    13 ∈ c6SubAfter.states ∧ 13 ∉ c6LexerAfter.mach.states :=
  ⟨rfl, by decide, by decide⟩

/-- Claim C7: the claim says `m.copy()` returns a duplicate whose states carry
the same accepting flag and the same start code.  The code raises for every
machine (`mach = self.__class__()` → `NameError` at automaton.py:100); and
independently, `_StateMapper.__missing__` (automaton.py:67) builds the
duplicate state from `key.accepting` only, dropping the start code: a source
state carrying code `"A"` maps to a state with `code = None`. -/
theorem c7_copy_crashes_and_mapper_drops_code :
    copyPy c7World c7Mach = .error nameErrorState ∧
    (getStateD c7World 5).code = some "A" ∧
    (getStateD (stateMapperMissing c7World c7Dest 5).1
      (stateMapperMissing c7World c7Dest 5).2.2).code = none :=
  ⟨rfl, rfl, rfl⟩

/-- Claim C8: on a canonical mutable CharSet, `add` and `discard` of a valid
code point succeed and preserve the canonical invariants (sorted, non-adjacent,
non-empty ranges within bounds, and `len` equal to the recomputed sum). -/
theorem c8_add_discard_preserve_invariants (s : CS) (c : Int)
    (hInv : CInv s) (hc0 : 0 ≤ c) (hcM : c ≤ MAX_CHAR) :
    ∃ s1 s2, CS.add s c = .ok s1 ∧ CS.discard s c = .ok s2 ∧
      CInv s1 ∧ CInv s2 ∧
      CS.length s1 = sumLen s1.ranges ∧ CS.length s2 = sumLen s2.ranges := by
  have hv : _vchars c = .ok () := by
    unfold _vchars
    rw [if_neg (by omega)]
  obtain ⟨⟨idx, b⟩, hsr, hlen, hres⟩ := search_full s.ranges c hInv.1
  cases b
  · -- item not contained: add inserts, discard is a no-op
    simp only [searchRes, Bool.false_eq_true, if_false] at hres
    obtain ⟨out, hadd, haddC⟩ := add_point_spec s.ranges c idx hInv.1 hc0 hcM hres
    have haddrun : CS.add s c = .ok ⟨out, none⟩ := by
      simp only [CS.add, hv, hsr, hadd, bind, pure, Except.bind, Except.pure,
        Bool.false_eq_true, if_false]
    have hdisrun : CS.discard s c = .ok s := by
      by_cases hnil : s.ranges = []
      · simp only [CS.discard, hv, bind, Except.bind, pure, Except.pure, if_pos hnil]
      · simp only [CS.discard, hv, hsr, bind, Except.bind, pure, Except.pure,
          if_neg hnil, Bool.false_eq_true, not_false_iff, if_true]
    exact ⟨⟨out, none⟩, s, haddrun, hdisrun, ⟨haddC, by simp [cacheOK, CS.length]⟩, hInv,
      rfl, cinv_length s hInv⟩
  · -- item contained: add is a no-op, discard removes the point
    simp only [searchRes, if_true] at hres
    have hne : s.ranges ≠ [] := by
      intro h
      obtain ⟨hlt, _⟩ := hres
      rw [h] at hlt
      exact absurd hlt (by simp)
    obtain ⟨out, hdis, hdisC, hdissem⟩ := discard_point_spec s.ranges c idx hInv.1 hres
    have haddrun : CS.add s c = .ok s := by
      simp only [CS.add, hv, hsr, bind, Except.bind, pure, Except.pure, if_true]
    have hdisrun : CS.discard s c = .ok ⟨out, none⟩ := by
      simp only [CS.discard, hv, hsr, hdis, bind, Except.bind, pure, Except.pure,
        if_neg hne, not_true, if_false]
    exact ⟨s, ⟨out, none⟩, haddrun, hdisrun, hInv, ⟨hdisC, by simp [cacheOK, CS.length]⟩,
      cinv_length s hInv, rfl⟩

/-- Witness for C8 at a concrete input: the set `{10..20}` and the code
point 15. -/
theorem c8_witness :
    CInv ⟨[⟨10, 20⟩], none⟩ ∧ (0 : Int) ≤ 15 ∧ (15 : Int) ≤ MAX_CHAR ∧
    (∃ s1 s2, CS.add ⟨[⟨10, 20⟩], none⟩ 15 = .ok s1 ∧
      CS.discard ⟨[⟨10, 20⟩], none⟩ 15 = .ok s2 ∧ CInv s1 ∧ CInv s2 ∧
      CS.length s1 = sumLen s1.ranges ∧ CS.length s2 = sumLen s2.ranges) :=
  ⟨by decide, by decide, by decide,
    c8_add_discard_preserve_invariants ⟨[⟨10, 20⟩], none⟩ 15 (by decide)
      (by decide) (by decide)⟩

/-- Claim C9: for canonical CharSets, `isdisjoint(a, b)` returns true exactly
when the intersection `a & b` is the empty set (structurally, the CharSet with
no ranges and a fresh length cache). -/
theorem c9_isdisjoint_iff_empty_intersection (a b : CS) (hA : CInv a) (hB : CInv b) :
    (CS.isdisjoint a b = .ok true) ↔ (CS.and a b = .ok ⟨[], none⟩) := by
  obtain ⟨d, hd, hdiff⟩ := isdisjoint_spec a.ranges b.ranges hA.1 hB.1
  unfold CS.isdisjoint CS.and
  by_cases heq : baseEq a.ranges b.ranges = true
  · rw [if_pos heq]
    have heq2 := (baseEq_iff _ _).mp heq
    rw [hd]
    constructor
    · intro h
      have hbtrue : d = true := by
        injection h
      have hnomem := hdiff.mp hbtrue
      have hnil : a.ranges = [] := by
        refine (canon_nil_iff a.ranges hA.1).mpr ?_
        intro c hm
        exact hnomem c ⟨hm, heq2 ▸ hm⟩
      rw [hnil]
      rfl
    · intro h
      have hnil : a.ranges = [] := by
        have := Except.ok.inj h
        exact congrArg CS.ranges this
      have hall : ∀ c, ¬(lmem c a.ranges ∧ lmem c b.ranges) := by
        intro c hc
        rw [hnil] at hc
        obtain ⟨y, hy, _⟩ := hc.1
        cases hy
      rw [hdiff.mpr hall]
  · rw [if_neg heq]
    obtain ⟨out, hout, houtC, houtsem⟩ := inter_spec a.ranges b.ranges hA.1 hB.1
    rw [hd]
    simp only [hout, bind, Except.bind, pure, Except.pure]
    constructor
    · intro h
      have hbtrue : d = true := by
        injection h
      have hnc := hdiff.mp hbtrue
      have hnil : out = [] := by
        refine (canon_nil_iff out houtC).mpr ?_
        intro c hm
        exact hnc c ((houtsem c).mp hm)
      rw [hnil]
    · intro h
      have hnil : out = [] := by
        have := Except.ok.inj h
        exact congrArg CS.ranges this
      have hall : ∀ c, ¬(lmem c a.ranges ∧ lmem c b.ranges) := by
        intro c hc
        have hm : lmem c out := (houtsem c).mpr hc
        rw [hnil] at hm
        obtain ⟨y, hy, _⟩ := hm
        cases hy
      rw [hdiff.mpr hall]

/-- Witness for C9 at concrete inputs: `{0..1}` and `{3..4}`. -/
theorem c9_witness :
    CInv ⟨[⟨0, 1⟩], none⟩ ∧ CInv ⟨[⟨3, 4⟩], none⟩ ∧
    ((CS.isdisjoint ⟨[⟨0, 1⟩], none⟩ ⟨[⟨3, 4⟩], none⟩ = .ok true) ↔
      (CS.and ⟨[⟨0, 1⟩], none⟩ ⟨[⟨3, 4⟩], none⟩ = .ok ⟨[], none⟩)) :=
  ⟨by decide, by decide,
    c9_isdisjoint_iff_empty_intersection ⟨[⟨0, 1⟩], none⟩ ⟨[⟨3, 4⟩], none⟩
      (by decide) (by decide)⟩

/-- Claim C10: `MatchChar.match` at end of input (`char = None`,
transitions.py:321) returns `False` without invoking any simulator operation,
for every character set. -/
theorem c10_matchchar_none_no_consume (cset : List Rng) :
    matchCharMatchPy cset none = .ok (false, []) := rfl
